import Mathlib

/-! Wavelet: account state codec, round store and peer protocol handlers.

A shallow embedding of `db.go` (account fields over the versioned tree, the
round store over the durable key-value store) and of the request handlers of
`node/protocol.go`, followed by the properties established about them.

Conventions of the embedding:

* a Go `byte` is a `Fin 256`, a `[]byte` is a `List Byte`; a `nil` slice and an
  empty slice are both `[]`;
* `uint64`, `uint32` and `uint8` values are natural numbers, reduced modulo
  `2^64`, `2^32`, `2^8` wherever the Go code truncates or wraps;
* a Go function that can hit a run-time panic returns a `Result`, whose
  `panic` constructor stands for the fault;
* a Go `error` is an `Option Error`, `none` being `nil`;
* mutable receivers (the tree, the store, the ledger, the syncer) are passed
  and returned explicitly.
-/

namespace Wavelet

/-! ## Bytes and results -/

/-- A Go `byte`. -/
abbrev Byte := Fin 256

/-- A Go `[]byte`. -/
abbrev Bytes := List Byte

/-- Outcome of a Go call that may fault: a returned value or a run-time panic. -/
inductive Result (α : Type) where
  | ret : α → Result α
  | panic : Result α
  deriving DecidableEq, Repr

/-- Subtraction of `uint64` values, which wraps around below zero. -/
def subUint64 (a b : Nat) : Nat := (a % 2 ^ 64 + 2 ^ 64 - b % 2 ^ 64) % 2 ^ 64

/-- The conversion `byte(n)`: the low eight bits of `n`. -/
def toByte (n : Nat) : Byte := ⟨n % 256, Nat.mod_lt n (by decide)⟩

/-! ## encoding/binary -/

/-- The bytes `binary.LittleEndian.PutUint64` stores for `v`, low byte first. -/
def PutUint64LE (v : Nat) : Bytes :=
  [toByte v, toByte (v / 2 ^ 8), toByte (v / 2 ^ 16), toByte (v / 2 ^ 24),
   toByte (v / 2 ^ 32), toByte (v / 2 ^ 40), toByte (v / 2 ^ 48), toByte (v / 2 ^ 56)]

/-- The function `binary.LittleEndian.Uint64`: it reads `b[0..7]` and panics
(index out of range on `b[7]`) when the slice is shorter than eight bytes. -/
def Uint64LE : Bytes → Result Nat
  | b0 :: b1 :: b2 :: b3 :: b4 :: b5 :: b6 :: b7 :: _ =>
      .ret (b0.val + b1.val * 2 ^ 8 + b2.val * 2 ^ 16 + b3.val * 2 ^ 24
        + b4.val * 2 ^ 32 + b5.val * 2 ^ 40 + b6.val * 2 ^ 48 + b7.val * 2 ^ 56)
  | _ => .panic

/-- The bytes `binary.BigEndian.PutUint32` stores for `v`, high byte first. -/
def PutUint32BE (v : Nat) : Bytes :=
  [toByte (v / 2 ^ 24), toByte (v / 2 ^ 16), toByte (v / 2 ^ 8), toByte v]

/-- The expression `binary.BigEndian.Uint32(b[:4])`: the slice expression faults
when fewer than four bytes are available (the slice's capacity is taken to be
its length), otherwise the first four bytes are read. -/
def Uint32BE : Bytes → Result Nat
  | b0 :: b1 :: b2 :: b3 :: _ =>
      .ret (b0.val * 2 ^ 24 + b1.val * 2 ^ 16 + b2.val * 2 ^ 8 + b3.val)
  | _ => .panic

/-- The loop of `binary.PutUvarint`: seven bits per byte, low group first, the
high bit set on every byte but the last; `fuel` bounds the number of bytes that
carry the high bit. -/
def putUvarintLoop : Nat → Nat → Bytes
  | 0, x => [toByte x]
  | fuel + 1, x =>
    if x < 128 then [toByte x] else toByte (x % 128 + 128) :: putUvarintLoop fuel (x / 128)

/-- The bytes `binary.PutUvarint` stores for `x`; the fuel `x` is never used up. -/
def PutUvarint (x : Nat) : Bytes := putUvarintLoop x x

/-! ## strconv -/

/-- The digit loop of `strconv.Itoa`: the decimal digits of `n` in ASCII, most
significant first, put before `acc`; `fuel` bounds the number of digits. -/
def itoaLoop : Nat → Nat → Bytes → Bytes
  | 0, _, acc => acc
  | fuel + 1, n, acc =>
    if n < 10 then toByte (n + 48) :: acc
    else itoaLoop fuel (n / 10) (toByte (n % 10 + 48) :: acc)

/-- The function `strconv.Itoa` on a non-negative integer: its decimal digits in
ASCII, `"0"` for zero; a number `n` has at most `n + 1` digits. -/
def Itoa (n : Nat) : Bytes := itoaLoop (n + 1) n []

/-! ## The versioned tree -/

/-- Modelled from the spec: `avl.Tree` (package `avl` is not part of the
sources at hand) is "a black-box ordered key-value store"; the entries are
kept most recent first, so the first entry of a key is its current value. -/
structure Tree where
  entries : List (Bytes × Bytes)
  deriving DecidableEq, Repr

/-- Modelled from the spec: `(*avl.Tree).Insert` "inserts/overwrites" the key. -/
def Tree.Insert (t : Tree) (key value : Bytes) : Tree :=
  ⟨(key, value) :: t.entries⟩

/-- Modelled from the spec: `(*avl.Tree).Lookup` returns the value of the key
and whether the key is present. -/
def Tree.Lookup (t : Tree) (key : Bytes) : Bytes × Bool :=
  match t.entries.lookup key with
  | some v => (v, true)
  | none => ([], false)

/-- The tree without any key. -/
def Tree.empty : Tree := ⟨[]⟩

/-! ## db.go: account fields -/

/-- An `AccountID` / `TransactionID`: a `[32]byte` array, held as its bytes. -/
abbrev AccountID := Bytes

/-- See `AccountID`; the two kinds share their representation. -/
abbrev TransactionID := Bytes

def keyAccounts : Bytes := [0x1]
def keyAccountNonce : Bytes := [0x2]
def keyAccountBalance : Bytes := [0x3]
def keyAccountStake : Bytes := [0x4]
def keyAccountContractCode : Bytes := [0x5]
def keyAccountContractNumPages : Bytes := [0x6]
def keyAccountContractPages : Bytes := [0x7]
def keyRounds : Bytes := [0x8]
def keyRoundLatestIx : Bytes := [0x9]
def keyRoundOldestIx : Bytes := [0x10]
def keyRoundStoredCount : Bytes := [0x11]

def readUnderAccounts (tree : Tree) (id : AccountID) (key : Bytes) : Bytes × Bool :=
  let (buf, ok) := tree.Lookup (keyAccounts ++ (key ++ id))
  if !ok then ([], false) else (buf, true)

def writeUnderAccounts (tree : Tree) (id : AccountID) (key value : Bytes) : Tree :=
  tree.Insert (keyAccounts ++ (key ++ id)) value

def ReadAccountNonce (tree : Tree) (id : AccountID) : Result (Nat × Bool) :=
  let (buf, ok) := readUnderAccounts tree id keyAccountNonce
  if !ok || buf.length == 0 then .ret (0, false)
  else
    match Uint64LE buf with
    | .ret v => .ret (v, true)
    | .panic => .panic

def WriteAccountNonce (tree : Tree) (id : AccountID) (nonce : Nat) : Tree :=
  writeUnderAccounts tree id keyAccountNonce (PutUint64LE nonce)

def ReadAccountBalance (tree : Tree) (id : AccountID) : Result (Nat × Bool) :=
  let (buf, ok) := readUnderAccounts tree id keyAccountBalance
  if !ok || buf.length == 0 then .ret (0, false)
  else
    match Uint64LE buf with
    | .ret v => .ret (v, true)
    | .panic => .panic

def WriteAccountBalance (tree : Tree) (id : AccountID) (balance : Nat) : Tree :=
  writeUnderAccounts tree id keyAccountBalance (PutUint64LE balance)

def ReadAccountStake (tree : Tree) (id : AccountID) : Result (Nat × Bool) :=
  let (buf, ok) := readUnderAccounts tree id keyAccountStake
  if !ok || buf.length == 0 then .ret (0, false)
  else
    match Uint64LE buf with
    | .ret v => .ret (v, true)
    | .panic => .panic

def WriteAccountStake (tree : Tree) (id : AccountID) (stake : Nat) : Tree :=
  writeUnderAccounts tree id keyAccountStake (PutUint64LE stake)

def ReadAccountContractCode (tree : Tree) (id : TransactionID) : Bytes × Bool :=
  let (buf, ok) := readUnderAccounts tree id keyAccountContractCode
  if !ok || buf.length == 0 then ([], false) else (buf, true)

def WriteAccountContractCode (tree : Tree) (id : TransactionID) (code : Bytes) : Tree :=
  writeUnderAccounts tree id keyAccountContractCode code

def ReadAccountContractNumPages (tree : Tree) (id : TransactionID) : Result (Nat × Bool) :=
  let (buf, ok) := readUnderAccounts tree id keyAccountContractNumPages
  if !ok || buf.length == 0 then .ret (0, false)
  else
    match Uint64LE buf with
    | .ret v => .ret (v, true)
    | .panic => .panic

def WriteAccountContractNumPages (tree : Tree) (id : TransactionID) (numPages : Nat) : Tree :=
  writeUnderAccounts tree id keyAccountContractNumPages (PutUint64LE numPages)

/-! ## Errors (package errors) -/

/-- A non-nil Go `error`: one made by `errors.New`, or one made by
`errors.Wrap(cause, msg)`. -/
inductive Error where
  | new : String → Error
  | wrap : Error → String → Error
  deriving DecidableEq, Repr

deriving instance DecidableEq for Except

/-- The function `errors.Cause`: the innermost error of a chain of wraps. -/
def Error.Cause : Error → Error
  | .new s => .new s
  | .wrap e _ => e.Cause

/-! ## db.go: contract pages -/

/-- The block compressor (package `snappy`, an external library). `Encode`
writes the uvarint of the length of the source and then the compressed blocks;
the block encoder and the whole of `Decode` are left as parameters. -/
structure Snappy where
  blocks : Bytes → Bytes
  Decode : Bytes → Except Error Bytes

/-- The function `snappy.Encode(nil, src)`. -/
def Snappy.Encode (z : Snappy) (src : Bytes) : Bytes :=
  PutUvarint src.length ++ z.blocks src

def ReadAccountContractPage (z : Snappy) (tree : Tree) (id : TransactionID) (idx : Nat) :
    Bytes × Bool :=
  let idxBuf := PutUint64LE idx
  let (buf, ok) := readUnderAccounts tree id (keyAccountContractPages ++ idxBuf)
  if !ok || buf.length == 0 then ([], false)
  else
    match z.Decode buf with
    | .error _ => ([], false)
    | .ok decoded => (decoded, true)

def WriteAccountContractPage (z : Snappy) (tree : Tree) (id : TransactionID) (idx : Nat)
    (page : Bytes) : Tree :=
  let buf := PutUint64LE idx
  let encoded := z.Encode page
  writeUnderAccounts tree id (keyAccountContractPages ++ buf) encoded

/-! ## db.go: the round store -/

/-- Modelled from the spec: `Round` (its declaration is not part of the sources
at hand) is "a finalized, ordered batch of transactions with a root identifier
and view number"; the batch itself is kept as opaque bytes. -/
structure Round where
  ID : TransactionID
  ViewID : Nat
  Content : Bytes
  deriving DecidableEq, Repr

/-- The serialization of rounds, `Round.Marshal` and `UnmarshalRound`, whose
code is not part of the sources at hand: taken as parameters. -/
structure RoundCodec where
  Marshal : Round → Bytes
  UnmarshalRound : Bytes → Except Error Round

/-- Modelled from the spec: `store.KV` (package `store` is not part of the
sources at hand) is "a black-box get/put store" whose puts "can fail
independently". `entries` holds the successful puts, most recent first;
`putErrs` lists the outcomes of the puts to come (`some e`: that put fails with
`e` and writes nothing; `none`, or a list that has run out: it succeeds). -/
structure KV where
  entries : List (Bytes × Bytes)
  putErrs : List (Option Error)
  deriving DecidableEq, Repr

/-- The error of a `Get` on a key the store does not hold. -/
def ErrNotFound : Error := .new "key not found"

/-- Modelled from the spec: `KV.Get` returns the value last put under the key,
and an error when the key is missing. -/
def KV.Get (kv : KV) (key : Bytes) : Except Error Bytes :=
  match kv.entries.lookup key with
  | some v => .ok v
  | none => .error ErrNotFound

/-- Outcome of the next put of a store: the head of `putErrs`. -/
def KV.nextPutErr (kv : KV) : Option Error := kv.putErrs.head?.join

/-- Modelled from the spec: `KV.Put` writes the entry unless the put fails; a
failing put leaves the entries as they were. -/
def KV.Put (kv : KV) (key value : Bytes) : KV × Option Error :=
  match kv.nextPutErr with
  | some e => (⟨kv.entries, kv.putErrs.tail⟩, some e)
  | none => (⟨(key, value) :: kv.entries, kv.putErrs.tail⟩, none)

/-- A store without entries whose puts have the outcomes `putErrs`. -/
def KV.empty (putErrs : List (Option Error)) : KV := ⟨[], putErrs⟩

def StoreRound (c : RoundCodec) (kv : KV) (round : Round)
    (currentIx oldestIx storedCount : Nat) : KV × Option Error :=
  match kv.Put keyRoundStoredCount [toByte storedCount] with
  | (kv, some err) => (kv, some (.wrap err "error storing stored rounds count"))
  | (kv, none) =>
  let oldestIxBuf := PutUint32BE oldestIx
  match kv.Put keyRoundOldestIx oldestIxBuf with
  | (kv, some err) => (kv, some (.wrap err "error storing oldest round index"))
  | (kv, none) =>
  let currentIxBuf := PutUint32BE currentIx
  match kv.Put keyRoundLatestIx currentIxBuf with
  | (kv, some err) => (kv, some (.wrap err "error storing latest round index"))
  | (kv, none) =>
  match kv.Put (keyRounds ++ Itoa currentIx) (c.Marshal round) with
  | (kv, some err) => (kv, some (.wrap err "error storing round"))
  | (kv, none) => (kv, none)

/-- The `for` loop of `LoadRounds`: `n` rounds are still to be read, the next
one under the decimal string of `i`. -/
def loadRoundsLoop (c : RoundCodec) (kv : KV) : Nat → Nat → Except Error (List Round)
  | _, 0 => .ok []
  | i, n + 1 =>
    match kv.Get (keyRounds ++ Itoa i) with
    | .error err => .error (.wrap err ("error loading round - " ++ toString i))
    | .ok b =>
      match c.UnmarshalRound b with
      | .error err => .error (.wrap err "error unmarshaling round")
      | .ok round =>
        match loadRoundsLoop c kv (i + 1) n with
        | .error err => .error err
        | .ok rounds => .ok (round :: rounds)

def LoadRounds (c : RoundCodec) (kv : KV) : Result (List Round × Nat × Nat × Option Error) :=
  match kv.Get keyRoundLatestIx with
  | .error err => .ret ([], 0, 0, some (.wrap err "error loading latest round index"))
  | .ok b =>
  match Uint32BE b with
  | .panic => .panic
  | .ret latestIx =>
  match kv.Get keyRoundOldestIx with
  | .error err => .ret ([], 0, 0, some (.wrap err "error loading oldest round index"))
  | .ok b =>
  match Uint32BE b with
  | .panic => .panic
  | .ret oldestIx =>
  match kv.Get keyRoundStoredCount with
  | .error err => .ret ([], 0, 0, some (.wrap err "error loading oldest round index"))
  | .ok b =>
  match b with
  | [] => .panic
  | b0 :: _ =>
  let storedCount := b0.val
  match loadRoundsLoop c kv 0 storedCount with
  | .error err => .ret ([], 0, 0, some err)
  | .ok rounds => .ret (rounds, latestIx, oldestIx, none)

/-- One call of `StoreRound`: the round and the three numbers passed with it. -/
structure StoreCall where
  round : Round
  currentIx : Nat
  oldestIx : Nat
  storedCount : Nat
  deriving DecidableEq, Repr

/-- A sequence of `StoreRound` calls on a store, in order; the result is the
store after the last call and the errors the calls returned. -/
def storeRounds (c : RoundCodec) : KV → List StoreCall → KV × List (Option Error)
  | kv, [] => (kv, [])
  | kv, call :: calls =>
    let (kv1, err) := StoreRound c kv call.round call.currentIx call.oldestIx call.storedCount
    let (kv2, errs) := storeRounds c kv1 calls
    (kv2, err :: errs)

/-! ## node/protocol.go: the state the handlers work on -/

/-- The all-zero identifier, the zero value of a `[32]byte`. -/
def ZeroID : TransactionID := List.replicate 32 0

/-- Modelled from the spec: a transaction as the handlers see it (its
declaration is not part of the sources at hand): the identifier, the view it
was made in, and the remaining content as opaque bytes. -/
structure Transaction where
  ID : TransactionID
  ViewID : Nat
  Payload : Bytes
  deriving DecidableEq, Repr

/-- Modelled from the spec: the state of a conflict resolver (its code is not
part of the sources at hand): "per view, at most one preferred identifier; nil
means no opinion yet". -/
structure Resolver where
  preferred : Option TransactionID
  deriving DecidableEq, Repr

/-- Modelled from the spec: `preferred()` is a "pure read". -/
def Resolver.Preferred (r : Resolver) : Option TransactionID := r.preferred

/-- Modelled from the spec: `prefer(id)` "transitions to Committed with
preferred = id"; "calling again while already Committed is a no-op". -/
def Resolver.Prefer (r : Resolver) (id : TransactionID) : Resolver :=
  match r.preferred with
  | none => ⟨some id⟩
  | some _ => r

/-- Modelled from the spec: the ledger as the handlers see it (its code is not
part of the sources at hand): the current view, the current round root, the
difficulty, the resolver, and the pool of admitted transactions. -/
structure Ledger where
  viewID : Nat
  root : Round
  difficulty : Nat
  resolver : Resolver
  pool : List Transaction
  deriving DecidableEq, Repr

def Ledger.ViewID (l : Ledger) : Nat := l.viewID
def Ledger.Root (l : Ledger) : Round := l.root
def Ledger.Difficulty (l : Ledger) : Nat := l.difficulty
def Ledger.Resolver (l : Ledger) : Resolver := l.resolver

/-- The identifier of a peer, as given by `protocol.PeerID`. -/
abbrev PeerID := Bytes

/-- Modelled from the spec: the syncer (its code is not part of the sources at
hand) "tracks a mapping from peer identifier to the round-root identifier that
peer last advertised, plus a lookup getRootByID backed by locally cached
candidate roots"; it has a resolver of its own. -/
structure syncer where
  accounts : List (PeerID × TransactionID)
  roots : List Round
  resolver : Resolver
  deriving DecidableEq, Repr

/-- Modelled from the spec: `addRootIfNotExists` records what the peer
advertised and caches the root unless a root of that identifier is cached
already ("idempotent by identifier"). -/
def syncer.addRootIfNotExists (s : syncer) (peer : PeerID) (root : Round) : syncer :=
  { s with
    accounts := (peer, root.ID) :: s.accounts.filter (fun e => e.1 != peer)
    roots := if s.roots.any (fun r => r.ID == root.ID) then s.roots else s.roots ++ [root] }

/-- Modelled from the spec: `getRootByID` looks the identifier up among the
cached candidate roots; `none` is the nil pointer of an unknown identifier. -/
def syncer.getRootByID (s : syncer) (id : TransactionID) : Option Round :=
  s.roots.find? (fun r => r.ID == id)

/-- The broadcaster, of which the handlers read the pause flag only. -/
structure broadcaster where
  Paused : Bool
  deriving DecidableEq, Repr

/-- What a handler reaches through `peer.Node()`: the ledger, the broadcaster
and the syncer registered on the node. -/
structure Node where
  ledger : Ledger
  broadcaster : broadcaster
  syncer : syncer
  deriving DecidableEq, Repr

/-- The operations of the ledger and of transactions the handlers call and whose
code is not part of the sources at hand, taken as parameters:
`Transaction.IsCritical`, `Ledger.ReceiveTransaction` (which may change the
ledger and returns the vote, an error value), `Ledger.DumpDiff`, and the
sentinel `VoteAccepted`. -/
structure Env where
  IsCritical : Transaction → Nat → Bool
  ReceiveTransaction : Ledger → Transaction → Ledger × Option Error
  DumpDiff : Ledger → Nat → Bytes
  VoteAccepted : Error

structure GossipRequest where
  tx : Transaction
  deriving DecidableEq, Repr

structure GossipResponse where
  vote : Bool
  deriving DecidableEq, Repr

structure QueryRequest where
  tx : Transaction
  deriving DecidableEq, Repr

structure QueryResponse where
  preferred : TransactionID
  deriving DecidableEq, Repr

structure SyncViewRequest where
  root : Round
  deriving DecidableEq, Repr

structure SyncViewResponse where
  root : Option Round
  deriving DecidableEq, Repr

structure SyncDiffRequest where
  viewID : Nat
  deriving DecidableEq, Repr

structure SyncDiffResponse where
  root : Option Round
  diff : Bytes
  deriving DecidableEq, Repr

/-- The value of `new(GossipResponse)`. -/
def GossipResponse.zero : GossipResponse := ⟨false⟩

/-- The value of `new(QueryResponse)`. -/
def QueryResponse.zero : QueryResponse := ⟨ZeroID⟩

/-- The value of `new(SyncViewResponse)`. -/
def SyncViewResponse.zero : SyncViewResponse := ⟨none⟩

/-- The zero value of `SyncDiffResponse`. -/
def SyncDiffResponse.zero : SyncDiffResponse := ⟨none, []⟩

/-! ## node/protocol.go: the handlers

Each handler takes the node it runs on and returns the node after the request
together with the response it sends. -/

def handleSyncDiffRequest (env : Env) (node : Node) (req : SyncDiffRequest) :
    Node × SyncDiffResponse :=
  let ledger := node.ledger
  let res : SyncDiffResponse := ⟨some ledger.Root, env.DumpDiff ledger req.viewID⟩
  (node, res)

def handleSyncViewRequest (node : Node) (peer : PeerID) (req : SyncViewRequest) :
    Node × SyncViewResponse :=
  let ledger := node.ledger
  let syncer := node.syncer
  let syncer := syncer.addRootIfNotExists peer req.root
  let syncer :=
    if ledger.ViewID < req.root.ViewID ∧ syncer.resolver.Preferred = none then
      { syncer with resolver := syncer.resolver.Prefer req.root.ID }
    else syncer
  let res : SyncViewResponse :=
    match syncer.resolver.Preferred with
    | none => ⟨some ledger.Root⟩
    | some preferred => ⟨syncer.getRootByID preferred⟩
  ({ node with syncer := syncer }, res)

def handleQueryRequest (env : Env) (node : Node) (req : QueryRequest) :
    Node × QueryResponse :=
  let ledger := node.ledger
  let res := QueryResponse.zero
  if node.broadcaster.Paused then (node, res)
  else
    let ledger :=
      if env.IsCritical req.tx ledger.Difficulty ∧ ledger.Resolver.Preferred = none
          ∧ req.tx.ID ≠ ledger.Root.ID then
        { ledger with resolver := ledger.Resolver.Prefer req.tx.ID }
      else ledger
    let res : QueryResponse :=
      if req.tx.ViewID = subUint64 ledger.ViewID 1 then ⟨ledger.Root.ID⟩
      else
        match ledger.Resolver.Preferred with
        | some preferred => ⟨preferred⟩
        | none => res
    ({ node with ledger := ledger }, res)

def handleGossipRequest (env : Env) (node : Node) (req : GossipRequest) :
    Node × GossipResponse :=
  let ledger := node.ledger
  let res := GossipResponse.zero
  if node.broadcaster.Paused then (node, res)
  else
    let (ledger, vote) := env.ReceiveTransaction ledger req.tx
    let res : GossipResponse :=
      ⟨match vote with
        | some e => decide (e.Cause = env.VoteAccepted)
        | none => false⟩
    ({ node with ledger := ledger }, res)

/-- A run of query requests on a node; before each request the pause flag is
set to the value that comes with it. -/
def handleQueryRequests (env : Env) : Node → List (Bool × QueryRequest) → Node
  | node, [] => node
  | node, (paused, req) :: rest =>
    handleQueryRequests env
      (handleQueryRequest env { node with broadcaster := ⟨paused⟩ } req).1 rest

/-! ## db.go: the fields of an account, by name -/

/-- The fields `db.go` stores for an account; a contract page comes with its
index. -/
inductive Field where
  | nonce
  | balance
  | stake
  | contractCode
  | contractNumPages
  | contractPage (idx : Nat)
  deriving DecidableEq, Repr

/-- The `key` argument the functions of a field pass to `readUnderAccounts` and
`writeUnderAccounts`. -/
def Field.key : Field → Bytes
  | .nonce => keyAccountNonce
  | .balance => keyAccountBalance
  | .stake => keyAccountStake
  | .contractCode => keyAccountContractCode
  | .contractNumPages => keyAccountContractNumPages
  | .contractPage idx => keyAccountContractPages ++ PutUint64LE idx

/-- The tree key of a field of an account, as `readUnderAccounts` and
`writeUnderAccounts` build it. -/
def accountKey (f : Field) (id : AccountID) : Bytes := keyAccounts ++ (f.key ++ id)

/-- A page index is a `uint64`; the other fields carry no index. -/
def Field.valid : Field → Prop
  | .contractPage idx => idx < 2 ^ 64
  | _ => True

instance (f : Field) : Decidable f.valid := by
  cases f <;> simp only [Field.valid] <;> infer_instance

/-- What the `Read` function of a field returns: a number for the fixed-width
fields, bytes for the code and the pages. -/
inductive ReadOut where
  | number : Result (Nat × Bool) → ReadOut
  | bytes : Bytes × Bool → ReadOut
  deriving DecidableEq, Repr

/-- The `Write` function of a field; `v` is the argument of the fixed-width
fields, `b` that of the code and of the pages. -/
def writeField (z : Snappy) (tree : Tree) (id : AccountID) (v : Nat) (b : Bytes) :
    Field → Tree
  | .nonce => WriteAccountNonce tree id v
  | .balance => WriteAccountBalance tree id v
  | .stake => WriteAccountStake tree id v
  | .contractCode => WriteAccountContractCode tree id b
  | .contractNumPages => WriteAccountContractNumPages tree id v
  | .contractPage idx => WriteAccountContractPage z tree id idx b

/-- The `Read` function of a field. -/
def readField (z : Snappy) (tree : Tree) (id : AccountID) : Field → ReadOut
  | .nonce => .number (ReadAccountNonce tree id)
  | .balance => .number (ReadAccountBalance tree id)
  | .stake => .number (ReadAccountStake tree id)
  | .contractCode => .bytes (ReadAccountContractCode tree id)
  | .contractNumPages => .number (ReadAccountContractNumPages tree id)
  | .contractPage idx => .bytes (ReadAccountContractPage z tree id idx)

/-! ## wctl/tx_find.go -/

/-- Modelled from the spec: `api.Account` (its declaration is not part of the
sources at hand), with the fields `Find` reads. -/
structure api.Account where
  Balance : Nat
  Stake : Nat
  IsContract : Bool
  NumPages : Nat
  deriving DecidableEq, Repr

/-- Modelled from the spec: `api.Transaction` (its declaration is not part of
the sources at hand), of which `Find` reads nothing; the identifier stands for
its content. -/
structure api.Transaction where
  ID : TransactionID
  deriving DecidableEq, Repr

/-- The two lookups of the client, `GetAccount` and `GetTransaction`, whose code
is not part of the sources at hand: each returns a value with a nil error, or an
error. -/
structure Client where
  GetAccount : Bytes → Except Error api.Account
  GetTransaction : Bytes → Except Error api.Transaction

/-- A lookup the client was asked for. -/
inductive Request where
  | account : Bytes → Request
  | transaction : Bytes → Request
  deriving DecidableEq, Repr

/-- The method `Client.Find`: the triple it returns, and the lookups it made,
in order. -/
def Client.Find (c : Client) (address : Bytes) :
    (Option api.Account × Option api.Transaction × Option Error) × List Request :=
  let second : (Option api.Account × Option api.Transaction × Option Error) × List Request :=
    match c.GetTransaction address with
    | .ok t => ((none, some t, none), [.account address, .transaction address])
    | .error _ =>
      ((none, none, some (.new "Address not found")),
        [.account address, .transaction address])
  match c.GetAccount address with
  | .ok a =>
    if a.Balance > 0 ∨ a.Stake > 0 ∨ a.IsContract = true ∨ a.NumPages > 0 then
      ((some a, none, none), [.account address])
    else second
  | .error _ => second

/-! ## Runs of `StoreRound` -/

/-- The calls `StoreRound(kv, r_k, currentIx = k, oldestIx = 0, storedCount =
k + 1)` for the rounds of a list, `k` counting from `start`. -/
def numberedCalls : Nat → List Round → List StoreCall
  | _, [] => []
  | k, r :: rs => ⟨r, k, 0, k + 1⟩ :: numberedCalls (k + 1) rs

/-! ## Sample data

Concrete instances of the parameters, on which the definitions above can be
evaluated. -/

/-- A compressor that stores the source as one literal run after the length
header; decoding skips the header (the bytes with the high bit set and the one
after them) and rejects the empty input. -/
def sampleSnappy : Snappy where
  blocks := fun src => src
  Decode := fun b =>
    match b with
    | [] => .error (.new "snappy: corrupt input")
    | _ => .ok (b.dropWhile fun x => decide (128 ≤ x.val)).tail

/-- A serialization of rounds: the view as eight little-endian bytes, the
length of the identifier as one byte, the identifier, then the content. -/
def sampleCodec : RoundCodec where
  Marshal := fun r => PutUint64LE r.ViewID ++ (toByte r.ID.length :: (r.ID ++ r.Content))
  UnmarshalRound := fun b =>
    match Uint64LE b with
    | .panic => .error (.new "unexpected EOF")
    | .ret view =>
      match b.drop 8 with
      | [] => .error (.new "unexpected EOF")
      | n :: rest =>
        if rest.length < n.val then .error (.new "unexpected EOF")
        else .ok ⟨rest.take n.val, view, rest.drop n.val⟩

/-- Two rounds to store. -/
def sampleRound0 : Round := ⟨[1], 0, [10]⟩

/-- See `sampleRound0`. -/
def sampleRound1 : Round := ⟨[2], 1, [11]⟩

/-- Two calls numbered 0 and 1, with stored counts 1 and 2. -/
def sampleCalls : List StoreCall := [⟨sampleRound0, 0, 0, 1⟩, ⟨sampleRound1, 1, 0, 2⟩]

/-- Two calls numbered 1 and 2, with stored counts 1 and 2: index 0 is never
stored. -/
def gapCalls : List StoreCall := [⟨sampleRound0, 1, 0, 1⟩, ⟨sampleRound1, 2, 0, 2⟩]

/-- An instance of the ledger operations: a transaction is critical when the
first byte of its identifier is below the difficulty; a transaction of the
current view is admitted to the pool and accepted, any other is rejected; the
diff is the view it was asked for. -/
def sampleEnv : Env where
  IsCritical := fun tx difficulty => decide ((tx.ID.headD 0).val < difficulty)
  ReceiveTransaction := fun ledger tx =>
    if tx.ViewID = ledger.viewID then
      ({ ledger with pool := tx :: ledger.pool }, some (.new "vote accepted"))
    else (ledger, some (.wrap (.new "vote rejected") "wrong view"))
  DumpDiff := fun _ viewID => PutUint64LE viewID
  VoteAccepted := .new "vote accepted"

/-- A root of view 0 whose identifier is not the all-zero one. -/
def sampleRoot : Round := ⟨List.replicate 32 1, 0, []⟩

/-- A root of view 5, as a peer may advertise it. -/
def sampleAdvertisedRoot : Round := ⟨List.replicate 32 2, 5, []⟩

/-- A node in view 1 with no preference, its pause flag set. -/
def samplePausedNode : Node where
  ledger := ⟨1, sampleRoot, 8, ⟨none⟩, []⟩
  broadcaster := ⟨true⟩
  syncer := ⟨[], [], ⟨none⟩⟩

/-- The node `samplePausedNode` with the pause flag cleared. -/
def sampleNode : Node := { samplePausedNode with broadcaster := ⟨false⟩ }

/-- A critical transaction of view 0, the view before that of the samples. -/
def sampleTx : Transaction := ⟨List.replicate 32 3, 0, []⟩

/-- A critical transaction of view 1. -/
def sampleTx1 : Transaction := ⟨List.replicate 32 4, 1, []⟩

/-- A tree in which the nonce, balance, stake and page count of the all-zero
account hold one byte each. -/
def shortFieldsTree : Tree :=
  (((Tree.empty.Insert (keyAccounts ++ (keyAccountNonce ++ ZeroID)) [1]).Insert
    (keyAccounts ++ (keyAccountBalance ++ ZeroID)) [1]).Insert
    (keyAccounts ++ (keyAccountStake ++ ZeroID)) [1]).Insert
    (keyAccounts ++ (keyAccountContractNumPages ++ ZeroID)) [1]

/-- A store whose third put fails. -/
def sampleFailingKV : KV := ⟨[], [none, none, some (.new "disk full")]⟩

/-- The store left by the two calls of `gapCalls`: the cursors are written, the
round of index 0 is not. -/
def gapKV : KV := (storeRounds sampleCodec (KV.empty []) gapCalls).1

/-- A compressor whose decoder checks the length header: one byte that must be
the number of bytes that follow. -/
def checkingSnappy : Snappy where
  blocks := fun src => src
  Decode := fun b =>
    match b with
    | [] => .error (.new "snappy: corrupt input")
    | n :: rest =>
      if n.val = rest.length then .ok rest else .error (.new "snappy: corrupt input")

/-- A tree in which page 3 of the all-zero account holds bytes that
`checkingSnappy` rejects. -/
def corruptPageTree : Tree :=
  Tree.empty.Insert (0x01 :: 0x07 :: (PutUint64LE 3 ++ ZeroID)) [5, 1]

/-- A root of view 1 with the identifier of `sampleAdvertisedRoot`. -/
def sampleStaleRoot : Round := ⟨List.replicate 32 2, 1, [1]⟩

/-- A client that knows one account without funds and one transaction, both
under the all-zero address. -/
def sampleClient : Client where
  GetAccount := fun address =>
    if address = ZeroID then .ok ⟨0, 0, false, 0⟩ else .error (.new "not found")
  GetTransaction := fun address =>
    if address = ZeroID then .ok ⟨ZeroID⟩ else .error (.new "not found")

/-! ### Helper lemmas -/

theorem Tree.Lookup_Insert (t : Tree) (key value : Bytes) :
    (t.Insert key value).Lookup key = (value, true) := by
  simp [Tree.Lookup, Tree.Insert, List.lookup]

theorem readUnderAccounts_write (tree : Tree) (id : AccountID) (key value : Bytes) :
    readUnderAccounts (writeUnderAccounts tree id key value) id key = (value, true) := by
  simp [readUnderAccounts, writeUnderAccounts, Tree.Lookup_Insert]

theorem Uint64LE_PutUint64LE (v : Nat) (hv : v < 2 ^ 64) :
    Uint64LE (PutUint64LE v) = .ret v := by
  simp only [PutUint64LE, Uint64LE, toByte]
  congr 1
  omega

theorem putUvarintLoop_ne_nil (fuel x : Nat) : putUvarintLoop fuel x ≠ [] := by
  cases fuel with
  | zero => simp [putUvarintLoop]
  | succ fuel =>
    unfold putUvarintLoop
    split <;> simp

theorem PutUvarint_ne_nil (x : Nat) : PutUvarint x ≠ [] :=
  putUvarintLoop_ne_nil x x

theorem Snappy.Encode_length_ne_zero (z : Snappy) (src : Bytes) :
    (z.Encode src).length ≠ 0 := by
  have h := PutUvarint_ne_nil src.length
  simp [Snappy.Encode, h]

/-! ## Account fields: write then read -/

/-- C1: for every tree, account id and 64-bit value `v` (zero included), writing
the nonce, the balance, the stake or the contract page count and then reading
the same field of the same account returns `(v, true)`. -/
theorem write_read_fixed_width (tree : Tree) (id : AccountID) (v : Nat) (hv : v < 2 ^ 64) :
    ReadAccountNonce (WriteAccountNonce tree id v) id = .ret (v, true)
    ∧ ReadAccountBalance (WriteAccountBalance tree id v) id = .ret (v, true)
    ∧ ReadAccountStake (WriteAccountStake tree id v) id = .ret (v, true)
    ∧ ReadAccountContractNumPages (WriteAccountContractNumPages tree id v) id
        = .ret (v, true) := by
  have hd := Uint64LE_PutUint64LE v hv
  have hl : (PutUint64LE v).length = 8 := rfl
  refine ⟨?_, ?_, ?_, ?_⟩
  · simp [ReadAccountNonce, WriteAccountNonce, readUnderAccounts_write, hd, hl]
  · simp [ReadAccountBalance, WriteAccountBalance, readUnderAccounts_write, hd, hl]
  · simp [ReadAccountStake, WriteAccountStake, readUnderAccounts_write, hd, hl]
  · simp [ReadAccountContractNumPages, WriteAccountContractNumPages,
      readUnderAccounts_write, hd, hl]

/-- Witness of C1: value zero, written over a tree that held another nonce. -/
theorem write_read_fixed_width_witness :
    (0 : Nat) < 2 ^ 64
    ∧ ReadAccountNonce (WriteAccountNonce (WriteAccountNonce Tree.empty ZeroID 7) ZeroID 0)
        ZeroID = .ret (0, true) :=
  ⟨by decide,
   (write_read_fixed_width (WriteAccountNonce Tree.empty ZeroID 7) ZeroID 0 (by decide)).1⟩

/-- C2: for every tree, id, page index and payload, writing a contract page and
then reading it returns `(payload, true)`, given that the compressor's `Decode`
inverts its `Encode`. -/
theorem write_read_contract_page (z : Snappy)
    (hz : ∀ p : Bytes, z.Decode (z.Encode p) = .ok p)
    (tree : Tree) (id : TransactionID) (idx : Nat) (payload : Bytes) :
    ReadAccountContractPage z (WriteAccountContractPage z tree id idx payload) id idx
      = (payload, true) := by
  have hne := z.Encode_length_ne_zero payload
  simp [ReadAccountContractPage, WriteAccountContractPage, readUnderAccounts_write, hz, hne]

theorem sampleSnappy_header_loop (p : Bytes) : ∀ (fuel n : Nat), n < 128 ^ (fuel + 1) →
    ((putUvarintLoop fuel n ++ p).dropWhile fun x => decide (128 ≤ x.val)).tail = p := by
  intro fuel
  induction fuel with
  | zero =>
    intro n hn
    have : ¬ 128 ≤ n % 256 := by omega
    simp [putUvarintLoop, List.dropWhile, toByte, this]
  | succ fuel ih =>
    intro n hn
    unfold putUvarintLoop
    split
    · next h =>
      have : ¬ 128 ≤ n % 256 := by omega
      simp [List.dropWhile, toByte, this]
    · next h =>
      have h1 : 128 ≤ (n % 128 + 128) % 256 := by omega
      simp only [List.cons_append, List.dropWhile, toByte, h1, decide_True]
      apply ih
      rw [pow_succ] at hn
      omega

theorem sampleSnappy_header (n : Nat) (p : Bytes) :
    ((PutUvarint n ++ p).dropWhile fun x => decide (128 ≤ x.val)).tail = p := by
  apply sampleSnappy_header_loop
  calc n < 2 ^ n := Nat.lt_two_pow n
    _ ≤ 128 ^ n := Nat.pow_le_pow_left (by decide) n
    _ ≤ 128 ^ (n + 1) := Nat.pow_le_pow_right (by decide) (Nat.le_succ n)

theorem sampleSnappy_inverts (p : Bytes) :
    sampleSnappy.Decode (sampleSnappy.Encode p) = .ok p := by
  have hne : PutUvarint p.length ++ p ≠ [] := by simp [PutUvarint_ne_nil]
  have hh := sampleSnappy_header p.length p
  have hm : ∀ b : Bytes, b ≠ [] → sampleSnappy.Decode b
      = .ok (b.dropWhile fun x => decide (128 ≤ x.val)).tail := by
    intro b hb
    cases b with
    | nil => exact absurd rfl hb
    | cons x xs => rfl
  rw [Snappy.Encode, hm _ (by simpa [sampleSnappy] using hne)]
  simpa [sampleSnappy] using hh

/-- Witness of C2: the empty payload, page 3, with the sample compressor. -/
theorem write_read_contract_page_witness :
    (∀ p : Bytes, sampleSnappy.Decode (sampleSnappy.Encode p) = .ok p)
    ∧ ReadAccountContractPage sampleSnappy
        (WriteAccountContractPage sampleSnappy Tree.empty ZeroID 3 []) ZeroID 3 = ([], true) :=
  ⟨sampleSnappy_inverts,
   write_read_contract_page sampleSnappy sampleSnappy_inverts Tree.empty ZeroID 3 []⟩

/-- C3, as stated, fails on the empty byte string: after the empty code is
written, reading it back reports the entry as absent. -/
theorem write_read_contract_code_empty_absent :
    ReadAccountContractCode (WriteAccountContractCode Tree.empty ZeroID []) ZeroID
        = ([], false)
    ∧ ReadAccountContractCode (WriteAccountContractCode Tree.empty ZeroID []) ZeroID
        ≠ ([], true) := by
  decide

/-- C3, amended: for every tree and id, writing a non-empty code and reading it
returns `(code, true)`; writing the empty code and reading it returns
`(nil, false)`, an entry with an empty value being read as absent. -/
theorem write_read_contract_code (tree : Tree) (id : TransactionID) (code : Bytes) :
    (code ≠ [] →
      ReadAccountContractCode (WriteAccountContractCode tree id code) id = (code, true))
    ∧ ReadAccountContractCode (WriteAccountContractCode tree id []) id = ([], false) := by
  constructor
  · intro h
    have hl : code.length ≠ 0 := by simpa using h
    simp [ReadAccountContractCode, WriteAccountContractCode, readUnderAccounts_write, hl]
  · simp [ReadAccountContractCode, WriteAccountContractCode, readUnderAccounts_write]

/-- Witness of the amended C3: a one-byte code over a tree that held a code. -/
theorem write_read_contract_code_witness :
    ([1] : Bytes) ≠ []
    ∧ ReadAccountContractCode
        (WriteAccountContractCode (WriteAccountContractCode Tree.empty ZeroID [2, 3]) ZeroID [1])
        ZeroID = ([1], true) :=
  ⟨by decide,
   (write_read_contract_code (WriteAccountContractCode Tree.empty ZeroID [2, 3]) ZeroID [1]).1
     (by decide)⟩

/-! ## The round store -/

/-- The number a string of ASCII decimal digits stands for. -/
theorem decimalValue_foldl (l : Bytes) (a : Nat) :
    l.foldl (fun a b => a * 10 + (b.val - 48)) a
      = a * 10 ^ l.length + l.foldl (fun a b => a * 10 + (b.val - 48)) 0 := by
  induction l generalizing a with
  | nil => simp
  | cons b l ih =>
    simp only [List.foldl_cons, List.length_cons]
    rw [ih (a * 10 + (b.val - 48)), ih (0 * 10 + (b.val - 48))]
    ring

theorem itoaLoop_value : ∀ (fuel n : Nat) (acc : Bytes), n < 10 ^ fuel →
    (itoaLoop fuel n acc).foldl (fun a b => a * 10 + (b.val - 48)) 0
      = n * 10 ^ acc.length + acc.foldl (fun a b => a * 10 + (b.val - 48)) 0 := by
  intro fuel
  induction fuel with
  | zero =>
    intro n acc hn
    have : n = 0 := by simpa using hn
    subst this
    simp [itoaLoop]
  | succ fuel ih =>
    intro n acc hn
    unfold itoaLoop
    split
    · next h =>
      rw [List.foldl_cons, decimalValue_foldl]
      have : (toByte (n + 48)).val - 48 = n := by simp only [toByte]; omega
      rw [this]
      ring
    · next h =>
      have hn1 : n / 10 < 10 ^ fuel := by
        rw [pow_succ] at hn
        omega
      rw [ih (n / 10) _ hn1, List.foldl_cons, decimalValue_foldl _ (0 * 10 + _)]
      have : (toByte (n % 10 + 48)).val - 48 = n % 10 := by simp only [toByte]; omega
      rw [this, List.length_cons, pow_succ]
      have h10 : n = n / 10 * 10 + n % 10 := by omega
      generalize 10 ^ acc.length = q
      generalize n / 10 = d at h10 ⊢
      generalize n % 10 = m at h10 ⊢
      subst h10
      ring

theorem Itoa_value (n : Nat) :
    (Itoa n).foldl (fun a b => a * 10 + (b.val - 48)) 0 = n := by
  have hn : n < 10 ^ (n + 1) :=
    calc n < 2 ^ n := Nat.lt_two_pow n
      _ ≤ 10 ^ n := Nat.pow_le_pow_left (by decide) n
      _ ≤ 10 ^ (n + 1) := Nat.pow_le_pow_right (by decide) (Nat.le_succ n)
  rw [Itoa, itoaLoop_value (n + 1) n [] hn]
  simp

theorem Itoa_injective {i j : Nat} (h : Itoa i = Itoa j) : i = j := by
  rw [← Itoa_value i, ← Itoa_value j, h]

theorem Uint32BE_PutUint32BE (v : Nat) (hv : v < 2 ^ 32) :
    Uint32BE (PutUint32BE v) = .ret v := by
  simp only [PutUint32BE, Uint32BE, toByte]
  congr 1
  omega

theorem KV.Put_ok {kv kv1 : KV} {key value : Bytes} (h : kv.Put key value = (kv1, none)) :
    kv1.entries = (key, value) :: kv.entries := by
  unfold KV.Put at h
  split at h
  · simp at h
  · simp only [Prod.mk.injEq, and_true] at h
    rw [← h]

/-- The entries a successful `StoreRound` leaves in the store. -/
theorem StoreRound_ok_entries {c : RoundCodec} {kv kv1 : KV} {round : Round}
    {currentIx oldestIx storedCount : Nat}
    (h : StoreRound c kv round currentIx oldestIx storedCount = (kv1, none)) :
    kv1.entries = (keyRounds ++ Itoa currentIx, c.Marshal round)
      :: (keyRoundLatestIx, PutUint32BE currentIx)
      :: (keyRoundOldestIx, PutUint32BE oldestIx)
      :: (keyRoundStoredCount, [toByte storedCount]) :: kv.entries := by
  unfold StoreRound at h
  split at h
  · simp at h
  · next ka h1 =>
    dsimp only at h
    split at h
    · simp at h
    · next kb h2 =>
      split at h
      · simp at h
      · next kc h3 =>
        split at h
        · simp at h
        · next kd h4 =>
          simp only [Prod.mk.injEq, and_true] at h
          rw [← h, KV.Put_ok h4, KV.Put_ok h3, KV.Put_ok h2, KV.Put_ok h1]

theorem StoreRound_ok_Get {c : RoundCodec} {kv kv1 : KV} {round : Round}
    {currentIx oldestIx storedCount : Nat}
    (h : StoreRound c kv round currentIx oldestIx storedCount = (kv1, none)) :
    kv1.Get keyRoundStoredCount = .ok [toByte storedCount]
    ∧ kv1.Get keyRoundOldestIx = .ok (PutUint32BE oldestIx)
    ∧ kv1.Get keyRoundLatestIx = .ok (PutUint32BE currentIx)
    ∧ kv1.Get (keyRounds ++ Itoa currentIx) = .ok (c.Marshal round)
    ∧ ∀ j, j ≠ currentIx → kv1.Get (keyRounds ++ Itoa j) = kv.Get (keyRounds ++ Itoa j) := by
  have he := StoreRound_ok_entries h
  refine ⟨?_, ?_, ?_, ?_, ?_⟩
  · simp [KV.Get, he, List.lookup, keyRounds, keyRoundLatestIx, keyRoundOldestIx,
      keyRoundStoredCount]
  · simp [KV.Get, he, List.lookup, keyRounds, keyRoundLatestIx, keyRoundOldestIx]
  · simp [KV.Get, he, List.lookup, keyRounds, keyRoundLatestIx]
  · simp [KV.Get, he, List.lookup]
  · intro j hj
    have hne : (Itoa j == Itoa currentIx) = false :=
      beq_false_of_ne fun e => hj (Itoa_injective e)
    simp [KV.Get, he, List.lookup, keyRounds, keyRoundLatestIx, keyRoundOldestIx,
      keyRoundStoredCount, hne]

theorem storeRounds_cons_fst (c : RoundCodec) (kv : KV) (call : StoreCall)
    (calls : List StoreCall) :
    (storeRounds c kv (call :: calls)).1 = (storeRounds c
      (StoreRound c kv call.round call.currentIx call.oldestIx call.storedCount).1 calls).1 :=
  rfl

theorem storeRounds_cons_snd (c : RoundCodec) (kv : KV) (call : StoreCall)
    (calls : List StoreCall) :
    (storeRounds c kv (call :: calls)).2
      = (StoreRound c kv call.round call.currentIx call.oldestIx call.storedCount).2
        :: (storeRounds c
          (StoreRound c kv call.round call.currentIx call.oldestIx call.storedCount).1 calls).2 :=
  rfl

/-- After successful calls whose current indices are `base, base + 1, ...`: the
round of the `k`-th call is stored under the decimal string of `base + k`, and
the cursor keys hold the numbers of the last call. -/
theorem storeRounds_ok_Get (c : RoundCodec) :
    ∀ (calls : List StoreCall) (kv : KV) (base : Nat),
    (∀ e ∈ (storeRounds c kv calls).2, e = none) →
    calls.map (fun call => call.currentIx) = List.range' base calls.length →
    (∀ k call, calls[k]? = some call →
      (storeRounds c kv calls).1.Get (keyRounds ++ Itoa (base + k))
        = .ok (c.Marshal call.round))
    ∧ (∀ j, j < base →
      (storeRounds c kv calls).1.Get (keyRounds ++ Itoa j) = kv.Get (keyRounds ++ Itoa j))
    ∧ (∀ call, calls.getLast? = some call →
      (storeRounds c kv calls).1.Get keyRoundStoredCount = .ok [toByte call.storedCount]
      ∧ (storeRounds c kv calls).1.Get keyRoundOldestIx = .ok (PutUint32BE call.oldestIx)
      ∧ (storeRounds c kv calls).1.Get keyRoundLatestIx
          = .ok (PutUint32BE call.currentIx)) := by
  intro calls
  induction calls with
  | nil =>
    intro kv base _ _
    refine ⟨?_, ?_, ?_⟩
    · intro k call h; simp at h
    · intro j _; rfl
    · intro call h; simp at h
  | cons call rest ih =>
    intro kv base hok hix
    rw [storeRounds_cons_snd] at hok
    have hhead : (StoreRound c kv call.round call.currentIx call.oldestIx
        call.storedCount).2 = none := hok _ (List.mem_cons_self _ _)
    have htail : ∀ e ∈ (storeRounds c (StoreRound c kv call.round call.currentIx
        call.oldestIx call.storedCount).1 rest).2, e = none :=
      fun e he => hok e (List.mem_cons_of_mem _ he)
    have hstep : StoreRound c kv call.round call.currentIx call.oldestIx call.storedCount
        = ((StoreRound c kv call.round call.currentIx call.oldestIx call.storedCount).1,
            none) := by
      rw [← hhead]
    simp only [List.map_cons, List.length_cons, List.range'_succ, List.cons.injEq] at hix
    obtain ⟨hcur, hrest⟩ := hix
    obtain ⟨g1, g2, g3, g4, g5⟩ := StoreRound_ok_Get hstep
    obtain ⟨i1, i2, i3⟩ := ih _ (base + 1) htail hrest
    rw [storeRounds_cons_fst]
    refine ⟨?_, ?_, ?_⟩
    · intro k call1 hk
      cases k with
      | zero =>
        simp only [List.getElem?_cons_zero, Option.some.injEq] at hk
        subst hk
        rw [Nat.add_zero, i2 base (Nat.lt_succ_self base), ← hcur]
        exact g4
      | succ k =>
        simp only [List.getElem?_cons_succ] at hk
        have := i1 k call1 hk
        rw [show base + (k + 1) = base + 1 + k by omega]
        exact this
    · intro j hj
      rw [i2 j (by omega)]
      exact g5 j (by omega)
    · intro call1 hlast
      cases rest with
      | nil =>
        simp only [List.getLast?_singleton, Option.some.injEq] at hlast
        subst hlast
        exact ⟨g1, g2, g3⟩
      | cons call2 rest2 =>
        rw [List.getLast?_cons_cons] at hlast
        exact i3 call1 hlast

/-- The loop of `LoadRounds` returns the rounds `rs` when they are stored, in
order, under the decimal strings of `i, i + 1, ...` and each of them is read
back from its serialization. -/
theorem loadRoundsLoop_ok (c : RoundCodec) (kv : KV) :
    ∀ (rs : List Round) (i : Nat),
    (∀ k r, rs[k]? = some r → kv.Get (keyRounds ++ Itoa (i + k)) = .ok (c.Marshal r)) →
    (∀ r ∈ rs, c.UnmarshalRound (c.Marshal r) = .ok r) →
    loadRoundsLoop c kv i rs.length = .ok rs := by
  intro rs
  induction rs with
  | nil => intro i _ _; rfl
  | cons r rest ih =>
    intro i hget hcodec
    have h0 := hget 0 r (by simp)
    have hr := hcodec r (List.mem_cons_self _ _)
    have hrest := ih (i + 1)
      (fun k r1 hk => by
        have := hget (k + 1) r1 (by simpa using hk)
        rw [show i + 1 + k = i + (k + 1) by omega]
        exact this)
      (fun r1 h1 => hcodec r1 (List.mem_cons_of_mem _ h1))
    rw [Nat.add_zero] at h0
    simp only [List.length_cons, loadRoundsLoop, h0, hr, hrest]

/-- Loading after successful calls numbered `0, 1, ...`: when the stored count of
the last call, as a byte, is at most the number of calls, `LoadRounds` returns
that many rounds, those of the first calls in order, with the indices of the
last call. -/
theorem LoadRounds_storeRounds (c : RoundCodec) (kv : KV) (calls : List StoreCall)
    (hne : calls ≠ [])
    (hok : ∀ e ∈ (storeRounds c kv calls).2, e = none)
    (hix : calls.map (fun call => call.currentIx) = List.range' 0 calls.length)
    (hcnt : (calls.getLast hne).storedCount % 256 ≤ calls.length)
    (hcur : (calls.getLast hne).currentIx < 2 ^ 32)
    (hold : (calls.getLast hne).oldestIx < 2 ^ 32)
    (hcodec : ∀ call ∈ calls, c.UnmarshalRound (c.Marshal call.round) = .ok call.round) :
    LoadRounds c (storeRounds c kv calls).1
      = .ret ((calls.map fun call => call.round).take ((calls.getLast hne).storedCount % 256),
          (calls.getLast hne).currentIx, (calls.getLast hne).oldestIx, none) := by
  obtain ⟨h1, _, h3⟩ := storeRounds_ok_Get c calls kv 0 hok hix
  obtain ⟨gcnt, gold, glat⟩ := h3 _ (List.getLast?_eq_getLast calls hne)
  have hlen : ((calls.map fun call => call.round).take
      ((calls.getLast hne).storedCount % 256)).length
      = (calls.getLast hne).storedCount % 256 := by
    rw [List.length_take, List.length_map]
    omega
  have hloop : loadRoundsLoop c (storeRounds c kv calls).1 0
      ((calls.map fun call => call.round).take
        ((calls.getLast hne).storedCount % 256)).length
      = .ok ((calls.map fun call => call.round).take
          ((calls.getLast hne).storedCount % 256)) := by
    apply loadRoundsLoop_ok
    · intro k r hk
      have hk1 : (calls.map fun call => call.round)[k]? = some r := by
        rw [List.getElem?_take] at hk
        split at hk
        · exact hk
        · simp at hk
      rw [List.getElem?_map] at hk1
      cases hc : calls[k]? with
      | none => rw [hc] at hk1; simp at hk1
      | some call =>
        rw [hc] at hk1
        simp only [Option.map_some', Option.some.injEq] at hk1
        rw [← hk1]
        exact h1 k call hc
    · intro r hr
      obtain ⟨call, hmem, rfl⟩ := List.mem_map.1 (List.mem_of_mem_take hr)
      exact hcodec call hmem
  rw [hlen] at hloop
  have hval : (toByte (calls.getLast hne).storedCount).val
      = (calls.getLast hne).storedCount % 256 := rfl
  simp only [LoadRounds, glat, gold, gcnt, Uint32BE_PutUint32BE _ hcur,
    Uint32BE_PutUint32BE _ hold, hval, hloop]

/-- C4, as stated, fails when the current indices increase but do not start at
zero: two successful calls with current indices 1 and 2 and stored counts 1 and
2 leave no round under index 0, and `LoadRounds` returns an error. -/
theorem load_after_gap_fails :
    List.Pairwise (fun a b => a < b) (gapCalls.map fun call => call.currentIx)
    ∧ gapCalls.map (fun call => call.storedCount) = [1, 2]
    ∧ (storeRounds sampleCodec (KV.empty []) gapCalls).2 = [none, none]
    ∧ LoadRounds sampleCodec (storeRounds sampleCodec (KV.empty []) gapCalls).1
        = .ret ([], 0, 0, some (.wrap ErrNotFound "error loading round - 0")) := by
  decide

/-- C4, amended: for every non-empty sequence of successful `StoreRound` calls on
an initially empty store in which the `k`-th call (from 0) has current index `k`
and stored count `(k + 1) mod 256` (a `uint8` incremented by one from 1), the
indices fit 32 bits, and every stored round is read back from its
serialization, `LoadRounds` returns without error exactly as many rounds as the
last stored count, the rounds of the first calls in index order, with the
current and oldest index of the last call; with at most 255 calls these are the
rounds of all the calls. -/
theorem load_after_stores (c : RoundCodec) (putErrs : List (Option Error))
    (calls : List StoreCall) (hne : calls ≠ [])
    (hok : ∀ e ∈ (storeRounds c (KV.empty putErrs) calls).2, e = none)
    (hix : calls.map (fun call => call.currentIx) = List.range' 0 calls.length)
    (hcnt : calls.map (fun call => call.storedCount)
      = (List.range' 1 calls.length).map fun n => n % 256)
    (hcur : (calls.getLast hne).currentIx < 2 ^ 32)
    (hold : (calls.getLast hne).oldestIx < 2 ^ 32)
    (hcodec : ∀ call ∈ calls, c.UnmarshalRound (c.Marshal call.round) = .ok call.round) :
    LoadRounds c (storeRounds c (KV.empty putErrs) calls).1
      = .ret ((calls.map fun call => call.round).take (calls.getLast hne).storedCount,
          (calls.getLast hne).currentIx, (calls.getLast hne).oldestIx, none)
    ∧ ((calls.map fun call => call.round).take (calls.getLast hne).storedCount).length
        = (calls.getLast hne).storedCount
    ∧ (calls.length ≤ 255 →
        (calls.map fun call => call.round).take (calls.getLast hne).storedCount
          = calls.map fun call => call.round) := by
  have hlast : (calls.getLast hne).storedCount = calls.length % 256 := by
    have h := congrArg List.getLast? hcnt
    have hpos : calls.length ≠ 0 := fun h0 => hne (List.length_eq_zero.1 h0)
    rw [List.getLast?_map, List.getLast?_map, List.getLast?_range',
      List.getLast?_eq_getLast calls hne, if_neg hpos] at h
    simp only [Option.map_some', Option.some.injEq] at h
    rw [h]
    congr 1
    omega
  have hmod : (calls.getLast hne).storedCount % 256 = (calls.getLast hne).storedCount := by
    rw [hlast]
    omega
  have hle : (calls.getLast hne).storedCount ≤ calls.length := by
    rw [hlast]
    exact Nat.mod_le _ _
  have hmain := LoadRounds_storeRounds c (KV.empty putErrs) calls hne hok hix
    (by rw [hmod]; exact hle) hcur hold hcodec
  rw [hmod] at hmain
  refine ⟨hmain, ?_, fun h255 => ?_⟩
  · rw [List.length_take, List.length_map]
    omega
  · apply List.take_of_length_le
    rw [List.length_map, hlast]
    omega

/-- Witness of the amended C4: the two calls of the example of the spec. -/
theorem load_after_stores_witness :
    (∀ e ∈ (storeRounds sampleCodec (KV.empty []) sampleCalls).2, e = none)
    ∧ sampleCalls.map (fun call => call.currentIx) = List.range' 0 sampleCalls.length
    ∧ LoadRounds sampleCodec (storeRounds sampleCodec (KV.empty []) sampleCalls).1
        = .ret ([sampleRound0, sampleRound1], 1, 0, none) :=
  ⟨by decide, by decide,
   (load_after_stores sampleCodec [] sampleCalls (by decide) (by decide) (by decide)
    (by decide) (by decide) (by decide) (by decide)).1⟩

/-- C9 against the code: a fixed-width field whose stored value has one byte is
not read as absent; each of the four readers faults, in
`binary.LittleEndian.Uint64`, which indexes the eighth byte. -/
theorem read_short_field_panics :
    ReadAccountNonce shortFieldsTree ZeroID = .panic
    ∧ ReadAccountBalance shortFieldsTree ZeroID = .panic
    ∧ ReadAccountStake shortFieldsTree ZeroID = .panic
    ∧ ReadAccountContractNumPages shortFieldsTree ZeroID = .panic
    ∧ ReadAccountNonce shortFieldsTree ZeroID ≠ .ret (0, false) := by
  decide

/-- C10: `StoreRound` puts the stored count, the oldest index, the latest index
and the round, in this order; it returns nil exactly when the four puts succeed;
when a put fails it returns the failure of that put wrapped, attempts no later
put (the outcomes of the later puts are not consumed) and rolls nothing back
(the entries of the earlier puts of the call stay in the store). -/
theorem StoreRound_puts (c : RoundCodec) (kv : KV) (round : Round)
    (currentIx oldestIx storedCount : Nat) :
    ((StoreRound c kv round currentIx oldestIx storedCount).2 = none ↔
      kv.putErrs[0]?.join = none ∧ kv.putErrs[1]?.join = none
      ∧ kv.putErrs[2]?.join = none ∧ kv.putErrs[3]?.join = none)
    ∧ (∀ e, kv.putErrs[0]?.join = some e →
        StoreRound c kv round currentIx oldestIx storedCount
          = (⟨kv.entries, kv.putErrs.drop 1⟩,
              some (.wrap e "error storing stored rounds count")))
    ∧ (∀ e, kv.putErrs[0]?.join = none → kv.putErrs[1]?.join = some e →
        StoreRound c kv round currentIx oldestIx storedCount
          = (⟨(keyRoundStoredCount, [toByte storedCount]) :: kv.entries, kv.putErrs.drop 2⟩,
              some (.wrap e "error storing oldest round index")))
    ∧ (∀ e, kv.putErrs[0]?.join = none → kv.putErrs[1]?.join = none →
        kv.putErrs[2]?.join = some e →
        StoreRound c kv round currentIx oldestIx storedCount
          = (⟨(keyRoundOldestIx, PutUint32BE oldestIx)
                :: (keyRoundStoredCount, [toByte storedCount]) :: kv.entries,
              kv.putErrs.drop 3⟩,
              some (.wrap e "error storing latest round index")))
    ∧ (∀ e, kv.putErrs[0]?.join = none → kv.putErrs[1]?.join = none →
        kv.putErrs[2]?.join = none → kv.putErrs[3]?.join = some e →
        StoreRound c kv round currentIx oldestIx storedCount
          = (⟨(keyRoundLatestIx, PutUint32BE currentIx)
                :: (keyRoundOldestIx, PutUint32BE oldestIx)
                :: (keyRoundStoredCount, [toByte storedCount]) :: kv.entries,
              kv.putErrs.drop 4⟩,
              some (.wrap e "error storing round")))
    ∧ (kv.putErrs[0]?.join = none → kv.putErrs[1]?.join = none →
        kv.putErrs[2]?.join = none → kv.putErrs[3]?.join = none →
        StoreRound c kv round currentIx oldestIx storedCount
          = (⟨(keyRounds ++ Itoa currentIx, c.Marshal round)
                :: (keyRoundLatestIx, PutUint32BE currentIx)
                :: (keyRoundOldestIx, PutUint32BE oldestIx)
                :: (keyRoundStoredCount, [toByte storedCount]) :: kv.entries,
              kv.putErrs.drop 4⟩, none)) := by
  obtain ⟨es, pe⟩ := kv
  rcases pe with _ | ⟨_ | e0, _ | ⟨_ | e1, _ | ⟨_ | e2, _ | ⟨_ | e3, pe⟩⟩⟩⟩ <;>
    simp [StoreRound, KV.Put, KV.nextPutErr]

/-- Witness of C10: on a store whose third put fails, `StoreRound` returns that
failure wrapped and leaves the count and the oldest index written. -/
theorem StoreRound_puts_witness :
    sampleFailingKV.putErrs[0]?.join = none ∧ sampleFailingKV.putErrs[1]?.join = none
    ∧ sampleFailingKV.putErrs[2]?.join = some (.new "disk full")
    ∧ StoreRound sampleCodec sampleFailingKV sampleRound0 0 0 1
        = (⟨[(keyRoundOldestIx, PutUint32BE 0), (keyRoundStoredCount, [toByte 1])], []⟩,
            some (.wrap (.new "disk full") "error storing latest round index")) :=
  ⟨rfl, rfl, rfl,
   (StoreRound_puts sampleCodec sampleFailingKV sampleRound0 0 0 1).2.2.2.1 _ rfl rfl rfl⟩

/-! ## The handlers -/

/-- The query handler, not paused, on a request that makes it prefer. -/
theorem handleQueryRequest_prefer (env : Env) (node : Node) (req : QueryRequest)
    (hp : node.broadcaster.Paused = false)
    (hc : env.IsCritical req.tx node.ledger.Difficulty = true
      ∧ node.ledger.Resolver.Preferred = none ∧ req.tx.ID ≠ node.ledger.Root.ID) :
    handleQueryRequest env node req
      = ({ node with ledger :=
            { node.ledger with resolver := node.ledger.Resolver.Prefer req.tx.ID } },
          if req.tx.ViewID = subUint64 node.ledger.ViewID 1 then ⟨node.ledger.Root.ID⟩
          else
            match (node.ledger.Resolver.Prefer req.tx.ID).Preferred with
            | some preferred => ⟨preferred⟩
            | none => QueryResponse.zero) := by
  unfold handleQueryRequest
  dsimp only
  rw [if_neg (by simp [hp]), if_pos hc]
  rfl

/-- The query handler, not paused, on a request that does not make it prefer. -/
theorem handleQueryRequest_keep (env : Env) (node : Node) (req : QueryRequest)
    (hp : node.broadcaster.Paused = false)
    (hc : ¬ (env.IsCritical req.tx node.ledger.Difficulty = true
      ∧ node.ledger.Resolver.Preferred = none ∧ req.tx.ID ≠ node.ledger.Root.ID)) :
    handleQueryRequest env node req
      = (node,
          if req.tx.ViewID = subUint64 node.ledger.ViewID 1 then ⟨node.ledger.Root.ID⟩
          else
            match node.ledger.Resolver.Preferred with
            | some preferred => ⟨preferred⟩
            | none => QueryResponse.zero) := by
  unfold handleQueryRequest
  dsimp only
  rw [if_neg (by simp [hp]), if_neg hc]

/-- The query handler while paused. -/
theorem handleQueryRequest_paused (env : Env) (node : Node) (req : QueryRequest)
    (hp : node.broadcaster.Paused = true) :
    handleQueryRequest env node req = (node, QueryResponse.zero) := by
  simp [handleQueryRequest, hp]

/-- C5, as stated, fails for the two sync handlers: with the pause flag set,
`handleSyncViewRequest` still registers and adopts the advertised root and
answers with it, and `handleSyncDiffRequest` still answers with the current
root and the diff. -/
theorem paused_sync_handlers_act :
    samplePausedNode.broadcaster.Paused = true
    ∧ (handleSyncViewRequest samplePausedNode [7] ⟨sampleAdvertisedRoot⟩).1.syncer
        = ⟨[([7], sampleAdvertisedRoot.ID)], [sampleAdvertisedRoot],
            ⟨some sampleAdvertisedRoot.ID⟩⟩
    ∧ (handleSyncViewRequest samplePausedNode [7] ⟨sampleAdvertisedRoot⟩).1.syncer
        ≠ samplePausedNode.syncer
    ∧ (handleSyncViewRequest samplePausedNode [7] ⟨sampleAdvertisedRoot⟩).2
        = ⟨some sampleAdvertisedRoot⟩
    ∧ (handleSyncViewRequest samplePausedNode [7] ⟨sampleAdvertisedRoot⟩).2
        ≠ SyncViewResponse.zero
    ∧ (handleSyncDiffRequest sampleEnv samplePausedNode ⟨0⟩).2
        ≠ SyncDiffResponse.zero := by
  decide

/-- C5, amended: while the pause flag is set, `handleGossipRequest` and
`handleQueryRequest` leave the node (ledger, ledger resolver, syncer) unchanged
and send the zero-valued response; `handleSyncDiffRequest` and
`handleSyncViewRequest` do not read the flag: the former leaves the node
unchanged and answers with the current root and the diff, the latter leaves the
ledger unchanged and acts on the syncer and answers as it does with any value of
the flag. -/
theorem paused_handlers (env : Env) (node : Node) (hp : node.broadcaster.Paused = true) :
    (∀ req, handleGossipRequest env node req = (node, GossipResponse.zero))
    ∧ (∀ req, handleQueryRequest env node req = (node, QueryResponse.zero))
    ∧ (∀ req, handleSyncDiffRequest env node req
        = (node, ⟨some node.ledger.Root, env.DumpDiff node.ledger req.viewID⟩))
    ∧ (∀ peer req, (handleSyncViewRequest node peer req).1.ledger = node.ledger
        ∧ (handleSyncViewRequest node peer req).1.broadcaster = node.broadcaster
        ∧ ∀ flag : Bool, handleSyncViewRequest { node with broadcaster := ⟨flag⟩ } peer req
            = ({ (handleSyncViewRequest node peer req).1 with broadcaster := ⟨flag⟩ },
                (handleSyncViewRequest node peer req).2)) := by
  refine ⟨?_, ?_, ?_, ?_⟩
  · intro req; simp [handleGossipRequest, hp]
  · intro req; simp [handleQueryRequest, hp]
  · intro req; rfl
  · intro peer req
    exact ⟨rfl, rfl, fun _ => rfl⟩

/-- Witness of the amended C5: a query on the paused sample node. -/
theorem paused_handlers_witness :
    samplePausedNode.broadcaster.Paused = true
    ∧ handleQueryRequest sampleEnv samplePausedNode ⟨sampleTx⟩
        = (samplePausedNode, QueryResponse.zero) :=
  ⟨rfl, (paused_handlers sampleEnv samplePausedNode rfl).2.1 ⟨sampleTx⟩⟩

/-- C6, as stated, fails while the pause flag is set: a query for a transaction
of the view before the current one is answered with the all-zero identifier,
which is not the identifier of the current root. -/
theorem paused_query_not_root :
    sampleTx.ViewID = subUint64 samplePausedNode.ledger.ViewID 1
    ∧ (handleQueryRequest sampleEnv samplePausedNode ⟨sampleTx⟩).2.preferred = ZeroID
    ∧ (handleQueryRequest sampleEnv samplePausedNode ⟨sampleTx⟩).2.preferred
        ≠ samplePausedNode.ledger.Root.ID := by
  decide

/-- C6, amended: when the pause flag is not set, the response to a query whose
transaction has the view ID of the current view minus one (in 64-bit unsigned
arithmetic) has `preferred` equal to the identifier of the current round root,
whatever the state of the resolver. -/
theorem query_previous_view (env : Env) (node : Node) (req : QueryRequest)
    (hp : node.broadcaster.Paused = false)
    (hv : req.tx.ViewID = subUint64 node.ledger.ViewID 1) :
    (handleQueryRequest env node req).2.preferred = node.ledger.Root.ID := by
  by_cases hc : env.IsCritical req.tx node.ledger.Difficulty = true
      ∧ node.ledger.Resolver.Preferred = none ∧ req.tx.ID ≠ node.ledger.Root.ID
  · rw [handleQueryRequest_prefer env node req hp hc, if_pos hv]
  · rw [handleQueryRequest_keep env node req hp hc, if_pos hv]

/-- Witness of the amended C6: the sample node, not paused, in view 1, queried
for a transaction of view 0. -/
theorem query_previous_view_witness :
    sampleNode.broadcaster.Paused = false
    ∧ sampleTx.ViewID = subUint64 sampleNode.ledger.ViewID 1
    ∧ (handleQueryRequest sampleEnv sampleNode ⟨sampleTx⟩).2.preferred = sampleRoot.ID :=
  ⟨rfl, by decide, query_previous_view sampleEnv sampleNode ⟨sampleTx⟩ rfl (by decide)⟩

/-- C7: when the pause flag is not set, the response to a query is the
identifier of the current round root if the view ID of the transaction is the
current view ID minus one; otherwise the preference of the resolver as it stands
after the prefer step of the handler, if one is set (the transaction's own ID
when it is critical, is not the root and no preference existed); otherwise the
all-zero identifier. The prefer step sets the preference to the transaction's
ID exactly under the condition tested by the handler. -/
theorem query_response_cases (env : Env) (node : Node) (req : QueryRequest)
    (hp : node.broadcaster.Paused = false) :
    (req.tx.ViewID = subUint64 node.ledger.ViewID 1 →
      (handleQueryRequest env node req).2.preferred = node.ledger.Root.ID)
    ∧ (req.tx.ViewID ≠ subUint64 node.ledger.ViewID 1 →
        ∀ p, (handleQueryRequest env node req).1.ledger.Resolver.Preferred = some p →
          (handleQueryRequest env node req).2.preferred = p)
    ∧ (req.tx.ViewID ≠ subUint64 node.ledger.ViewID 1 →
        (handleQueryRequest env node req).1.ledger.Resolver.Preferred = none →
          (handleQueryRequest env node req).2.preferred = ZeroID)
    ∧ (req.tx.ViewID ≠ subUint64 node.ledger.ViewID 1 →
        env.IsCritical req.tx node.ledger.Difficulty = true →
        node.ledger.Resolver.Preferred = none → req.tx.ID ≠ node.ledger.Root.ID →
          (handleQueryRequest env node req).2.preferred = req.tx.ID)
    ∧ (handleQueryRequest env node req).1.ledger.Resolver
        = if env.IsCritical req.tx node.ledger.Difficulty = true
            ∧ node.ledger.Resolver.Preferred = none ∧ req.tx.ID ≠ node.ledger.Root.ID
          then node.ledger.Resolver.Prefer req.tx.ID else node.ledger.Resolver := by
  by_cases hc : env.IsCritical req.tx node.ledger.Difficulty = true
      ∧ node.ledger.Resolver.Preferred = none ∧ req.tx.ID ≠ node.ledger.Root.ID
  · rw [handleQueryRequest_prefer env node req hp hc, if_pos hc]
    have hpref : (node.ledger.Resolver.Prefer req.tx.ID).Preferred = some req.tx.ID := by
      have h := hc.2.1
      simp only [Resolver.Preferred] at h
      simp [Resolver.Prefer, Resolver.Preferred, h]
    refine ⟨fun hv => by rw [if_pos hv], fun hv p hq => ?_, fun hv hq => ?_,
      fun hv _ _ _ => ?_, rfl⟩
    · have e : some req.tx.ID = some p := hpref.symm.trans hq
      rw [if_neg hv, hpref]
      exact Option.some.inj e
    · exact absurd (hpref.symm.trans hq) (by simp)
    · rw [if_neg hv, hpref]
  · rw [handleQueryRequest_keep env node req hp hc, if_neg hc]
    refine ⟨fun hv => by rw [if_pos hv], fun hv p hq => ?_, fun hv hq => ?_,
      fun hv h1 h2 h3 => absurd ⟨h1, h2, h3⟩ hc, rfl⟩
    · rw [if_neg hv]
      simp only at hq
      rw [hq]
    · rw [if_neg hv]
      simp only at hq
      rw [hq]
      rfl

/-- Witness of C7: the sample node, not paused and without a preference, queried
for a critical transaction of its own view, answers with that transaction. -/
theorem query_response_cases_witness :
    sampleNode.broadcaster.Paused = false
    ∧ sampleTx1.ViewID ≠ subUint64 sampleNode.ledger.ViewID 1
    ∧ (handleQueryRequest sampleEnv sampleNode ⟨sampleTx1⟩).2.preferred = sampleTx1.ID :=
  ⟨rfl, by decide,
   (query_response_cases sampleEnv sampleNode ⟨sampleTx1⟩ rfl).2.2.2.1
     (by decide) (by decide) (by decide) (by decide)⟩

theorem handleQueryRequest_preferred_some (env : Env) (node : Node) (req : QueryRequest)
    (p : TransactionID) (h : node.ledger.Resolver.Preferred = some p) :
    (handleQueryRequest env node req).1.ledger.Resolver.Preferred = some p := by
  cases hp : node.broadcaster.Paused with
  | true => rw [handleQueryRequest_paused env node req hp]; exact h
  | false =>
    have hc : ¬ (env.IsCritical req.tx node.ledger.Difficulty = true
        ∧ node.ledger.Resolver.Preferred = none ∧ req.tx.ID ≠ node.ledger.Root.ID) := by
      rw [h]
      simp
    rw [handleQueryRequest_keep env node req hp hc]
    exact h

theorem handleQueryRequests_preferred_some (env : Env) (p : TransactionID) :
    ∀ (reqs : List (Bool × QueryRequest)) (node : Node),
    node.ledger.Resolver.Preferred = some p →
    (handleQueryRequests env node reqs).ledger.Resolver.Preferred = some p := by
  intro reqs
  induction reqs with
  | nil => intro node h; exact h
  | cons r rest ih =>
    intro node h
    obtain ⟨flag, req⟩ := r
    simp only [handleQueryRequests]
    exact ih _ (handleQueryRequest_preferred_some env _ req p h)

/-- C8, as stated, fails while the pause flag is set: the preference is unset,
the transaction is critical and is not the root, and yet the preference stays
unset. -/
theorem paused_query_keeps_unset :
    samplePausedNode.ledger.Resolver.Preferred = none
    ∧ sampleEnv.IsCritical sampleTx1 samplePausedNode.ledger.Difficulty = true
    ∧ sampleTx1.ID ≠ samplePausedNode.ledger.Root.ID
    ∧ (handleQueryRequest sampleEnv samplePausedNode ⟨sampleTx1⟩).1.ledger.Resolver.Preferred
        = none
    ∧ (handleQueryRequest sampleEnv samplePausedNode ⟨sampleTx1⟩).1.ledger.Resolver.Preferred
        ≠ some sampleTx1.ID := by
  decide

/-- C8, amended: `handleQueryRequest` changes the preference of the ledger
resolver only when it was unset before the request: if the pause flag is not
set, the preference is unset, the transaction is critical under the current
difficulty and its ID differs from the ID of the current root, the preference
becomes the ID of the transaction; in every other case (the pause flag set
included) the preference after the request is the preference before it. Hence
over any sequence of query requests, whatever the pause flag at each, a
preference once set is never unset and never changes. -/
theorem query_preference (env : Env) (node : Node) (req : QueryRequest) :
    (node.broadcaster.Paused = false → node.ledger.Resolver.Preferred = none →
      env.IsCritical req.tx node.ledger.Difficulty = true →
      req.tx.ID ≠ node.ledger.Root.ID →
        (handleQueryRequest env node req).1.ledger.Resolver.Preferred = some req.tx.ID)
    ∧ (¬ (node.broadcaster.Paused = false ∧ node.ledger.Resolver.Preferred = none
          ∧ env.IsCritical req.tx node.ledger.Difficulty = true
          ∧ req.tx.ID ≠ node.ledger.Root.ID) →
        (handleQueryRequest env node req).1.ledger.Resolver.Preferred
          = node.ledger.Resolver.Preferred)
    ∧ (∀ (reqs : List (Bool × QueryRequest)) (p : TransactionID),
        node.ledger.Resolver.Preferred = some p →
          (handleQueryRequests env node reqs).ledger.Resolver.Preferred = some p) := by
  refine ⟨fun hp h1 h2 h3 => ?_, fun hn => ?_,
    fun reqs p h => handleQueryRequests_preferred_some env p reqs node h⟩
  · rw [handleQueryRequest_prefer env node req hp ⟨h2, h1, h3⟩]
    simp only [Resolver.Preferred, Ledger.Resolver] at h1
    simp [Resolver.Prefer, Resolver.Preferred, Ledger.Resolver, h1]
  · cases hp : node.broadcaster.Paused with
    | true => rw [handleQueryRequest_paused env node req hp]
    | false =>
      have hc : ¬ (env.IsCritical req.tx node.ledger.Difficulty = true
          ∧ node.ledger.Resolver.Preferred = none ∧ req.tx.ID ≠ node.ledger.Root.ID) :=
        fun hc => hn ⟨hp, hc.2.1, hc.1, hc.2.2⟩
      rw [handleQueryRequest_keep env node req hp hc]

/-- Witness of the amended C8: the sample node, not paused and without a
preference, adopts the critical transaction it is queried for. -/
theorem query_preference_witness :
    sampleNode.broadcaster.Paused = false
    ∧ sampleNode.ledger.Resolver.Preferred = none
    ∧ sampleEnv.IsCritical sampleTx1 sampleNode.ledger.Difficulty = true
    ∧ sampleTx1.ID ≠ sampleNode.ledger.Root.ID
    ∧ (handleQueryRequest sampleEnv sampleNode ⟨sampleTx1⟩).1.ledger.Resolver.Preferred
        = some sampleTx1.ID :=
  ⟨rfl, rfl, by decide, by decide,
   (query_preference sampleEnv sampleNode ⟨sampleTx1⟩).1 rfl rfl (by decide) (by decide)⟩

/-! ## Loading the rounds: errors -/

/-- The loop of `LoadRounds` fails exactly when, below the count, some round
entry is missing or is not deserialized. -/
theorem loadRoundsLoop_error_iff (c : RoundCodec) (kv : KV) :
    ∀ (n i : Nat), (∃ e, loadRoundsLoop c kv i n = .error e) ↔
      ∃ k, k < n ∧ ((∃ e, kv.Get (keyRounds ++ Itoa (i + k)) = .error e)
        ∨ ∃ b e, kv.Get (keyRounds ++ Itoa (i + k)) = .ok b
            ∧ c.UnmarshalRound b = .error e) := by
  intro n
  induction n with
  | zero =>
    intro i
    constructor
    · rintro ⟨e, he⟩
      simp [loadRoundsLoop] at he
    · rintro ⟨k, hk, _⟩
      omega
  | succ n ih =>
    intro i
    cases hg : kv.Get (keyRounds ++ Itoa i) with
    | error e0 =>
      constructor
      · intro _
        exact ⟨0, by omega, Or.inl ⟨e0, by rw [Nat.add_zero]; exact hg⟩⟩
      · intro _
        simp only [loadRoundsLoop, hg]
        exact ⟨_, rfl⟩
    | ok b0 =>
      cases hu : c.UnmarshalRound b0 with
      | error e0 =>
        constructor
        · intro _
          exact ⟨0, by omega, Or.inr ⟨b0, e0, by rw [Nat.add_zero]; exact hg, hu⟩⟩
        · intro _
          simp only [loadRoundsLoop, hg, hu]
          exact ⟨_, rfl⟩
      | ok r0 =>
        have hstep : (∃ e, loadRoundsLoop c kv i (n + 1) = .error e)
            ↔ ∃ e, loadRoundsLoop c kv (i + 1) n = .error e := by
          cases hl : loadRoundsLoop c kv (i + 1) n with
          | error e1 => simp [loadRoundsLoop, hg, hu, hl]
          | ok rs => simp [loadRoundsLoop, hg, hu, hl]
        rw [hstep, ih (i + 1)]
        constructor
        · rintro ⟨k, hk, h⟩
          refine ⟨k + 1, by omega, ?_⟩
          rw [show i + (k + 1) = i + 1 + k by omega]
          exact h
        · rintro ⟨k, hk, h⟩
          cases k with
          | zero =>
            rw [Nat.add_zero, hg] at h
            rcases h with ⟨e, he⟩ | ⟨b, e, hb, he⟩
            · simp at he
            · simp only [Except.ok.injEq] at hb
              rw [← hb, hu] at he
              simp at he
          | succ k =>
            refine ⟨k, by omega, ?_⟩
            rw [show i + 1 + k = i + (k + 1) by omega]
            exact h

theorem Uint32BE_of_length {b : Bytes} (h : 4 ≤ b.length) : ∃ v, Uint32BE b = .ret v := by
  match b, h with
  | b0 :: b1 :: b2 :: b3 :: _, _ => exact ⟨_, rfl⟩

/-- C11: for every store whose cursor values, where present, are long enough
(four bytes for the latest and the oldest index, one byte for the count),
`LoadRounds` returns, and it returns an error exactly when one of the three
cursor keys is missing, or below the stored count some round entry, keyed by
the decimal string of its index, is missing or is not deserialized; on an error
it returns no rounds and zero indices; and it returns an error on every empty
store. -/
theorem LoadRounds_error_iff (c : RoundCodec) (kv : KV)
    (hl : ∀ b, kv.Get keyRoundLatestIx = .ok b → 4 ≤ b.length)
    (ho : ∀ b, kv.Get keyRoundOldestIx = .ok b → 4 ≤ b.length)
    (hc : ∀ b, kv.Get keyRoundStoredCount = .ok b → 1 ≤ b.length) :
    (∃ rounds latestIx oldestIx err,
      LoadRounds c kv = .ret (rounds, latestIx, oldestIx, err)
      ∧ (err ≠ none ↔
          (∃ e, kv.Get keyRoundLatestIx = .error e)
          ∨ (∃ e, kv.Get keyRoundOldestIx = .error e)
          ∨ (∃ e, kv.Get keyRoundStoredCount = .error e)
          ∨ ∃ b0 bs, kv.Get keyRoundStoredCount = .ok (b0 :: bs)
              ∧ ∃ i, i < b0.val
                ∧ ((∃ e, kv.Get (keyRounds ++ Itoa i) = .error e)
                  ∨ ∃ b e, kv.Get (keyRounds ++ Itoa i) = .ok b
                      ∧ c.UnmarshalRound b = .error e))
      ∧ (err ≠ none → rounds = [] ∧ latestIx = 0 ∧ oldestIx = 0))
    ∧ ∀ putErrs, ∃ e, LoadRounds c (KV.empty putErrs) = .ret ([], 0, 0, some e) := by
  refine ⟨?_, fun putErrs => ⟨_, rfl⟩⟩
  cases h1 : kv.Get keyRoundLatestIx with
  | error e1 =>
    exact ⟨[], 0, 0, some (e1.wrap "error loading latest round index"),
      by simp only [LoadRounds, h1], by simp, fun _ => ⟨rfl, rfl, rfl⟩⟩
  | ok b1 =>
    obtain ⟨v1, hv1⟩ := Uint32BE_of_length (hl b1 h1)
    cases h2 : kv.Get keyRoundOldestIx with
    | error e2 =>
      exact ⟨[], 0, 0, some (e2.wrap "error loading oldest round index"),
        by simp only [LoadRounds, h1, hv1, h2], by simp, fun _ => ⟨rfl, rfl, rfl⟩⟩
    | ok b2 =>
      obtain ⟨v2, hv2⟩ := Uint32BE_of_length (ho b2 h2)
      cases h3 : kv.Get keyRoundStoredCount with
      | error e3 =>
        exact ⟨[], 0, 0, some (e3.wrap "error loading oldest round index"),
          by simp only [LoadRounds, h1, hv1, h2, hv2, h3], by simp,
          fun _ => ⟨rfl, rfl, rfl⟩⟩
      | ok b3 =>
        have hlen := hc b3 h3
        cases b3 with
        | nil => simp at hlen
        | cons b0 bs =>
          have hiff := loadRoundsLoop_error_iff c kv b0.val 0
          cases h4 : loadRoundsLoop c kv 0 b0.val with
          | error e4 =>
            refine ⟨[], 0, 0, some e4, by simp only [LoadRounds, h1, hv1, h2, hv2, h3, h4],
              ?_, fun _ => ⟨rfl, rfl, rfl⟩⟩
            obtain ⟨k, hk, hk2⟩ := hiff.1 ⟨e4, h4⟩
            rw [Nat.zero_add] at hk2
            simp only [ne_eq, not_false_eq_true, true_iff, reduceCtorEq]
            exact Or.inr (Or.inr (Or.inr ⟨b0, bs, rfl, k, hk, hk2⟩))
          | ok rs =>
            refine ⟨rs, v1, v2, none, by simp only [LoadRounds, h1, hv1, h2, hv2, h3, h4],
              ?_, fun h => absurd rfl h⟩
            simp only [ne_eq, not_true_eq_false, false_iff, reduceCtorEq, exists_false,
              false_or, not_exists, not_and]
            intro b0' bs' heq i hi hbad
            simp only [Except.ok.injEq, List.cons.injEq] at heq
            obtain ⟨rfl, rfl⟩ := heq
            have := hiff.2 ⟨i, hi, by rw [Nat.zero_add]; exact hbad⟩
            rw [h4] at this
            obtain ⟨e, he⟩ := this
            simp at he

/-- Witness of C11: the store left by two calls numbered 1 and 2 has its three
cursors and no round of index 0, and `LoadRounds` returns an error on it. -/
theorem LoadRounds_error_iff_witness :
    gapKV.Get keyRoundLatestIx = .ok [0, 0, 0, 2]
    ∧ gapKV.Get keyRoundOldestIx = .ok [0, 0, 0, 0]
    ∧ gapKV.Get keyRoundStoredCount = .ok [2]
    ∧ ∃ rounds latestIx oldestIx err,
      LoadRounds sampleCodec gapKV = .ret (rounds, latestIx, oldestIx, err)
      ∧ (err ≠ none ↔
          (∃ e, gapKV.Get keyRoundLatestIx = .error e)
          ∨ (∃ e, gapKV.Get keyRoundOldestIx = .error e)
          ∨ (∃ e, gapKV.Get keyRoundStoredCount = .error e)
          ∨ ∃ b0 bs, gapKV.Get keyRoundStoredCount = .ok (b0 :: bs)
              ∧ ∃ i, i < b0.val
                ∧ ((∃ e, gapKV.Get (keyRounds ++ Itoa i) = .error e)
                  ∨ ∃ b e, gapKV.Get (keyRounds ++ Itoa i) = .ok b
                      ∧ sampleCodec.UnmarshalRound b = .error e))
      ∧ (err ≠ none → rounds = [] ∧ latestIx = 0 ∧ oldestIx = 0) :=
  have h1 : gapKV.Get keyRoundLatestIx = .ok [0, 0, 0, 2] := by decide
  have h2 : gapKV.Get keyRoundOldestIx = .ok [0, 0, 0, 0] := by decide
  have h3 : gapKV.Get keyRoundStoredCount = .ok [2] := by decide
  ⟨h1, h2, h3,
   (LoadRounds_error_iff sampleCodec gapKV
    (fun b hb => by rw [h1] at hb; cases hb; decide)
    (fun b hb => by rw [h2] at hb; cases hb; decide)
    (fun b hb => by rw [h3] at hb; cases hb; decide)).1⟩

/-! ## The entries of a stored round -/

/-- C12: after a successful `StoreRound` the store maps `[0x11]` to the single
byte of the stored count, `[0x10]` to the four big-endian bytes of the oldest
index, `[0x09]` to the four big-endian bytes of the current index, and `[0x08]`
followed by the decimal digits of the current index (ASCII digits that spell the
index) to the serialized round; the four keys are pairwise distinct, and every
other key is as it was. -/
theorem StoreRound_ok_store (c : RoundCodec) (kv kv1 : KV) (round : Round)
    (currentIx oldestIx storedCount : Nat)
    (h : StoreRound c kv round currentIx oldestIx storedCount = (kv1, none)) :
    kv1.Get [0x11] = .ok [toByte storedCount]
    ∧ kv1.Get [0x10] = .ok (PutUint32BE oldestIx)
    ∧ kv1.Get [0x09] = .ok (PutUint32BE currentIx)
    ∧ kv1.Get (0x08 :: Itoa currentIx) = .ok (c.Marshal round)
    ∧ (storedCount < 2 ^ 8 → (toByte storedCount).val = storedCount)
    ∧ (PutUint32BE oldestIx).length = 4 ∧ (PutUint32BE currentIx).length = 4
    ∧ (oldestIx < 2 ^ 32 → Uint32BE (PutUint32BE oldestIx) = .ret oldestIx)
    ∧ (currentIx < 2 ^ 32 → Uint32BE (PutUint32BE currentIx) = .ret currentIx)
    ∧ (Itoa currentIx).foldl (fun a b => a * 10 + (b.val - 48)) 0 = currentIx
    ∧ ([[0x11], [0x10], [0x09], 0x08 :: Itoa currentIx] : List Bytes).Pairwise
        (fun a b => a ≠ b)
    ∧ ∀ key : Bytes, key ≠ [0x11] → key ≠ [0x10] → key ≠ [0x09] →
        key ≠ 0x08 :: Itoa currentIx → kv1.Get key = kv.Get key := by
  obtain ⟨g1, g2, g3, g4, _⟩ := StoreRound_ok_Get h
  have he := StoreRound_ok_entries h
  refine ⟨g1, g2, g3, g4, ?_, rfl, rfl, Uint32BE_PutUint32BE _, Uint32BE_PutUint32BE _,
    Itoa_value _, ?_, ?_⟩
  · intro hlt
    simp only [toByte]
    omega
  · simp
  · intro key k1 k2 k3 k4
    have b1 : (key == keyRoundStoredCount) = false := beq_false_of_ne k1
    have b2 : (key == keyRoundOldestIx) = false := beq_false_of_ne k2
    have b3 : (key == keyRoundLatestIx) = false := beq_false_of_ne k3
    have b4 : (key == keyRounds ++ Itoa currentIx) = false := beq_false_of_ne k4
    simp only [KV.Get, he, List.lookup, b1, b2, b3, b4]

/-- Witness of C12: the first call of the example of the spec, on an empty store
whose puts succeed. -/
theorem StoreRound_ok_store_witness :
    StoreRound sampleCodec (KV.empty []) sampleRound0 0 0 1
      = (⟨[(0x08 :: Itoa 0, sampleCodec.Marshal sampleRound0), ([0x09], PutUint32BE 0),
            ([0x10], PutUint32BE 0), ([0x11], [1])], []⟩, none)
    ∧ KV.Get ⟨[(0x08 :: Itoa 0, sampleCodec.Marshal sampleRound0), ([0x09], PutUint32BE 0),
            ([0x10], PutUint32BE 0), ([0x11], [1])], []⟩ [0x11] = .ok [toByte 1] :=
  ⟨by decide,
   (StoreRound_ok_store sampleCodec (KV.empty []) _ sampleRound0 0 0 1 (by decide)).1⟩

/-! ## The keys of the account fields -/

/-- The contract page reader in terms of what the tree holds under the key of
the page. -/
theorem ReadAccountContractPage_of_Lookup (z : Snappy) (tree : Tree) (id : TransactionID)
    (idx : Nat) (buf : Bytes) (ok : Bool)
    (h : tree.Lookup (0x01 :: 0x07 :: (PutUint64LE idx ++ id)) = (buf, ok)) :
    ReadAccountContractPage z tree id idx
      = if ok = false ∨ buf = [] then ([], false)
        else
          match z.Decode buf with
          | .error _ => ([], false)
          | .ok decoded => (decoded, true) := by
  have h1 : tree.Lookup (keyAccounts ++ (keyAccountContractPages ++ PutUint64LE idx ++ id))
      = (buf, ok) := h
  unfold ReadAccountContractPage readUnderAccounts
  simp only [h1]
  cases ok <;> cases buf <;> simp

/-- C13: every account field is written under `[0x01][tag][id]` with tag `0x02`
for the nonce, `0x03` for the balance, `0x04` for the stake, `0x05` for the
contract code and `0x06` for the contract page count; a contract page is
written under `[0x01][0x07]`, the eight little-endian bytes of its index, then
the id; the value of a fixed-width field is the eight little-endian bytes of the
integer; and each `Read` looks up the key its `Write` inserts: its result is
determined by what the tree holds under that key (absent or empty: the default
and `false`; otherwise the decoding of the value held), so that right after an
insertion under that key it is the decoding of the inserted value. -/
theorem account_field_keys (z : Snappy) (tree : Tree) (id : AccountID) (v idx : Nat)
    (b : Bytes) :
    WriteAccountNonce tree id v = tree.Insert (0x01 :: 0x02 :: id) (PutUint64LE v)
    ∧ WriteAccountBalance tree id v = tree.Insert (0x01 :: 0x03 :: id) (PutUint64LE v)
    ∧ WriteAccountStake tree id v = tree.Insert (0x01 :: 0x04 :: id) (PutUint64LE v)
    ∧ WriteAccountContractCode tree id b = tree.Insert (0x01 :: 0x05 :: id) b
    ∧ WriteAccountContractNumPages tree id v
        = tree.Insert (0x01 :: 0x06 :: id) (PutUint64LE v)
    ∧ WriteAccountContractPage z tree id idx b
        = tree.Insert (0x01 :: 0x07 :: (PutUint64LE idx ++ id)) (z.Encode b)
    ∧ (PutUint64LE v).length = 8 ∧ (PutUint64LE idx).length = 8
    ∧ (v < 2 ^ 64 → Uint64LE (PutUint64LE v) = .ret v)
    ∧ (∀ t : Tree, t.Lookup (0x01 :: 0x02 :: id) = tree.Lookup (0x01 :: 0x02 :: id) →
        ReadAccountNonce t id = ReadAccountNonce tree id)
    ∧ (∀ t : Tree, t.Lookup (0x01 :: 0x03 :: id) = tree.Lookup (0x01 :: 0x03 :: id) →
        ReadAccountBalance t id = ReadAccountBalance tree id)
    ∧ (∀ t : Tree, t.Lookup (0x01 :: 0x04 :: id) = tree.Lookup (0x01 :: 0x04 :: id) →
        ReadAccountStake t id = ReadAccountStake tree id)
    ∧ (∀ t : Tree, t.Lookup (0x01 :: 0x05 :: id) = tree.Lookup (0x01 :: 0x05 :: id) →
        ReadAccountContractCode t id = ReadAccountContractCode tree id)
    ∧ (∀ t : Tree, t.Lookup (0x01 :: 0x06 :: id) = tree.Lookup (0x01 :: 0x06 :: id) →
        ReadAccountContractNumPages t id = ReadAccountContractNumPages tree id)
    ∧ (∀ t : Tree, t.Lookup (0x01 :: 0x07 :: (PutUint64LE idx ++ id))
          = tree.Lookup (0x01 :: 0x07 :: (PutUint64LE idx ++ id)) →
        ReadAccountContractPage z t id idx = ReadAccountContractPage z tree id idx)
    ∧ ReadAccountNonce tree id
        = (if (tree.Lookup (0x01 :: 0x02 :: id)).2 = false ∨ (tree.Lookup (0x01 :: 0x02 :: id)).1 = [] then
            .ret (0, false)
          else
            match Uint64LE (tree.Lookup (0x01 :: 0x02 :: id)).1 with
            | .ret n => .ret (n, true)
            | .panic => .panic)
    ∧ ReadAccountBalance tree id
        = (if (tree.Lookup (0x01 :: 0x03 :: id)).2 = false ∨ (tree.Lookup (0x01 :: 0x03 :: id)).1 = [] then
            .ret (0, false)
          else
            match Uint64LE (tree.Lookup (0x01 :: 0x03 :: id)).1 with
            | .ret n => .ret (n, true)
            | .panic => .panic)
    ∧ ReadAccountStake tree id
        = (if (tree.Lookup (0x01 :: 0x04 :: id)).2 = false ∨ (tree.Lookup (0x01 :: 0x04 :: id)).1 = [] then
            .ret (0, false)
          else
            match Uint64LE (tree.Lookup (0x01 :: 0x04 :: id)).1 with
            | .ret n => .ret (n, true)
            | .panic => .panic)
    ∧ ReadAccountContractNumPages tree id
        = (if (tree.Lookup (0x01 :: 0x06 :: id)).2 = false ∨ (tree.Lookup (0x01 :: 0x06 :: id)).1 = [] then
            .ret (0, false)
          else
            match Uint64LE (tree.Lookup (0x01 :: 0x06 :: id)).1 with
            | .ret n => .ret (n, true)
            | .panic => .panic)
    ∧ ReadAccountContractCode tree id
        = (if (tree.Lookup (0x01 :: 0x05 :: id)).2 = false ∨ (tree.Lookup (0x01 :: 0x05 :: id)).1 = [] then ([], false)
          else ((tree.Lookup (0x01 :: 0x05 :: id)).1, true))
    ∧ ReadAccountContractPage z tree id idx
        = (if (tree.Lookup (0x01 :: 0x07 :: (PutUint64LE idx ++ id))).2 = false
              ∨ (tree.Lookup (0x01 :: 0x07 :: (PutUint64LE idx ++ id))).1 = [] then ([], false)
          else
            match z.Decode (tree.Lookup (0x01 :: 0x07 :: (PutUint64LE idx ++ id))).1 with
            | .error _ => ([], false)
            | .ok decoded => (decoded, true))
    ∧ (∀ buf : Bytes, ReadAccountNonce (tree.Insert (0x01 :: 0x02 :: id) buf) id
        = (if buf = [] then .ret (0, false)
          else
            match Uint64LE buf with
            | .ret n => .ret (n, true)
            | .panic => .panic))
    ∧ (∀ buf : Bytes, ReadAccountBalance (tree.Insert (0x01 :: 0x03 :: id) buf) id
        = (if buf = [] then .ret (0, false)
          else
            match Uint64LE buf with
            | .ret n => .ret (n, true)
            | .panic => .panic))
    ∧ (∀ buf : Bytes, ReadAccountStake (tree.Insert (0x01 :: 0x04 :: id) buf) id
        = (if buf = [] then .ret (0, false)
          else
            match Uint64LE buf with
            | .ret n => .ret (n, true)
            | .panic => .panic))
    ∧ (∀ buf : Bytes, ReadAccountContractNumPages (tree.Insert (0x01 :: 0x06 :: id) buf) id
        = (if buf = [] then .ret (0, false)
          else
            match Uint64LE buf with
            | .ret n => .ret (n, true)
            | .panic => .panic))
    ∧ (∀ buf : Bytes, ReadAccountContractCode (tree.Insert (0x01 :: 0x05 :: id) buf) id
        = (if buf = [] then ([], false) else (buf, true)))
    ∧ (∀ buf : Bytes,
        ReadAccountContractPage z (tree.Insert (0x01 :: 0x07 :: (PutUint64LE idx ++ id)) buf) id idx
        = (if buf = [] then ([], false)
          else
            match z.Decode buf with
            | .error _ => ([], false)
            | .ok decoded => (decoded, true))) := by
  have e_nonce : ∀ (t : Tree) (buf : Bytes) (ok : Bool),
      t.Lookup (keyAccounts ++ (keyAccountNonce ++ id)) = (buf, ok) →
      ReadAccountNonce t id
        = if ok = false ∨ buf = [] then .ret (0, false)
          else
            match Uint64LE buf with
            | .ret n => .ret (n, true)
            | .panic => .panic := by
    intro t buf ok h
    unfold ReadAccountNonce readUnderAccounts
    simp only [h]
    cases ok <;> cases buf <;> simp
  have e_balance : ∀ (t : Tree) (buf : Bytes) (ok : Bool),
      t.Lookup (keyAccounts ++ (keyAccountBalance ++ id)) = (buf, ok) →
      ReadAccountBalance t id
        = if ok = false ∨ buf = [] then .ret (0, false)
          else
            match Uint64LE buf with
            | .ret n => .ret (n, true)
            | .panic => .panic := by
    intro t buf ok h
    unfold ReadAccountBalance readUnderAccounts
    simp only [h]
    cases ok <;> cases buf <;> simp
  have e_stake : ∀ (t : Tree) (buf : Bytes) (ok : Bool),
      t.Lookup (keyAccounts ++ (keyAccountStake ++ id)) = (buf, ok) →
      ReadAccountStake t id
        = if ok = false ∨ buf = [] then .ret (0, false)
          else
            match Uint64LE buf with
            | .ret n => .ret (n, true)
            | .panic => .panic := by
    intro t buf ok h
    unfold ReadAccountStake readUnderAccounts
    simp only [h]
    cases ok <;> cases buf <;> simp
  have e_pages : ∀ (t : Tree) (buf : Bytes) (ok : Bool),
      t.Lookup (keyAccounts ++ (keyAccountContractNumPages ++ id)) = (buf, ok) →
      ReadAccountContractNumPages t id
        = if ok = false ∨ buf = [] then .ret (0, false)
          else
            match Uint64LE buf with
            | .ret n => .ret (n, true)
            | .panic => .panic := by
    intro t buf ok h
    unfold ReadAccountContractNumPages readUnderAccounts
    simp only [h]
    cases ok <;> cases buf <;> simp
  have e_code : ∀ (t : Tree) (buf : Bytes) (ok : Bool),
      t.Lookup (keyAccounts ++ (keyAccountContractCode ++ id)) = (buf, ok) →
      ReadAccountContractCode t id
        = if ok = false ∨ buf = [] then ([], false) else (buf, true) := by
    intro t buf ok h
    unfold ReadAccountContractCode readUnderAccounts
    simp only [h]
    cases ok <;> cases buf <;> simp
  have e_page : ∀ (t : Tree) (buf : Bytes) (ok : Bool),
      t.Lookup (keyAccounts ++ (keyAccountContractPages ++ PutUint64LE idx ++ id))
        = (buf, ok) →
      ReadAccountContractPage z t id idx
        = if ok = false ∨ buf = [] then ([], false)
          else
            match z.Decode buf with
            | .error _ => ([], false)
            | .ok decoded => (decoded, true) := by
    intro t buf ok h
    unfold ReadAccountContractPage readUnderAccounts
    simp only [h]
    cases ok <;> cases buf <;> simp
  refine ⟨rfl, rfl, rfl, rfl, rfl, rfl, rfl, rfl, Uint64LE_PutUint64LE v, ?_, ?_, ?_, ?_, ?_, ?_,
    e_nonce tree _ _ rfl, e_balance tree _ _ rfl, e_stake tree _ _ rfl, e_pages tree _ _ rfl,
    e_code tree _ _ rfl, e_page tree _ _ rfl,
    fun buf => ?_, fun buf => ?_, fun buf => ?_, fun buf => ?_, fun buf => ?_,
    fun buf => ?_⟩
  · intro t h
    have h1 : t.Lookup (keyAccounts ++ (keyAccountNonce ++ id))
        = tree.Lookup (keyAccounts ++ (keyAccountNonce ++ id)) := h
    simp only [ReadAccountNonce, readUnderAccounts, h1]
  · intro t h
    have h1 : t.Lookup (keyAccounts ++ (keyAccountBalance ++ id))
        = tree.Lookup (keyAccounts ++ (keyAccountBalance ++ id)) := h
    simp only [ReadAccountBalance, readUnderAccounts, h1]
  · intro t h
    have h1 : t.Lookup (keyAccounts ++ (keyAccountStake ++ id))
        = tree.Lookup (keyAccounts ++ (keyAccountStake ++ id)) := h
    simp only [ReadAccountStake, readUnderAccounts, h1]
  · intro t h
    have h1 : t.Lookup (keyAccounts ++ (keyAccountContractCode ++ id))
        = tree.Lookup (keyAccounts ++ (keyAccountContractCode ++ id)) := h
    simp only [ReadAccountContractCode, readUnderAccounts, h1]
  · intro t h
    have h1 : t.Lookup (keyAccounts ++ (keyAccountContractNumPages ++ id))
        = tree.Lookup (keyAccounts ++ (keyAccountContractNumPages ++ id)) := h
    simp only [ReadAccountContractNumPages, readUnderAccounts, h1]
  · intro t h
    have h1 : t.Lookup (keyAccounts ++ (keyAccountContractPages ++ PutUint64LE idx ++ id))
        = tree.Lookup (keyAccounts ++ (keyAccountContractPages ++ PutUint64LE idx ++ id)) := h
    simp only [ReadAccountContractPage, readUnderAccounts, h1]
  · exact (e_nonce (tree.Insert (0x01 :: 0x02 :: id) buf) buf true
      (Tree.Lookup_Insert tree (0x01 :: 0x02 :: id) buf)).trans (by simp)
  · exact (e_balance (tree.Insert (0x01 :: 0x03 :: id) buf) buf true
      (Tree.Lookup_Insert tree (0x01 :: 0x03 :: id) buf)).trans (by simp)
  · exact (e_stake (tree.Insert (0x01 :: 0x04 :: id) buf) buf true
      (Tree.Lookup_Insert tree (0x01 :: 0x04 :: id) buf)).trans (by simp)
  · exact (e_pages (tree.Insert (0x01 :: 0x06 :: id) buf) buf true
      (Tree.Lookup_Insert tree (0x01 :: 0x06 :: id) buf)).trans (by simp)
  · exact (e_code (tree.Insert (0x01 :: 0x05 :: id) buf) buf true
      (Tree.Lookup_Insert tree (0x01 :: 0x05 :: id) buf)).trans (by simp)
  · exact (e_page (tree.Insert (0x01 :: 0x07 :: (PutUint64LE idx ++ id)) buf) buf true
      (Tree.Lookup_Insert tree (0x01 :: 0x07 :: (PutUint64LE idx ++ id)) buf)).trans (by simp)

/-- Witness of C13: the value 258 is written as the bytes 2, 1, 0, ... under
the key of the nonce, and the nonce reader, which looks that key up, reads the
eight bytes held there as 258. -/
theorem account_field_keys_witness :
    (258 : Nat) < 2 ^ 64
    ∧ WriteAccountNonce Tree.empty ZeroID 258
        = ⟨[(0x01 :: 0x02 :: ZeroID, [2, 1, 0, 0, 0, 0, 0, 0])]⟩
    ∧ Uint64LE (PutUint64LE 258) = .ret 258
    ∧ ReadAccountNonce ⟨[(0x01 :: 0x02 :: ZeroID, [2, 1, 0, 0, 0, 0, 0, 0])]⟩ ZeroID
        = .ret (258, true)
    ∧ ReadAccountNonce ⟨[(0x01 :: 0x03 :: ZeroID, [2, 1, 0, 0, 0, 0, 0, 0])]⟩ ZeroID
        = .ret (0, false)
    ∧ ReadAccountNonce (WriteAccountNonce Tree.empty ZeroID 258) ZeroID = .ret (258, true)
    ∧ ReadAccountContractCode (WriteAccountContractCode Tree.empty ZeroID [7]) ZeroID
        = ([7], true) :=
  ⟨by decide, by decide,
   (account_field_keys sampleSnappy Tree.empty ZeroID 258 3 []).2.2.2.2.2.2.2.2.1 (by decide),
   (account_field_keys sampleSnappy ⟨[(0x01 :: 0x02 :: ZeroID, [2, 1, 0, 0, 0, 0, 0, 0])]⟩
     ZeroID 258 3 []).2.2.2.2.2.2.2.2.2.2.2.2.2.2.2.1.trans (by decide),
   (account_field_keys sampleSnappy ⟨[(0x01 :: 0x03 :: ZeroID, [2, 1, 0, 0, 0, 0, 0, 0])]⟩
     ZeroID 258 3 []).2.2.2.2.2.2.2.2.2.2.2.2.2.2.2.1.trans (by decide),
   by decide, by decide⟩

/-- C14: when the key of a field of an account is absent from the tree, the
`Read` of the field returns the default and `false`, without a fault: `(0,
false)` for the nonce, the balance, the stake and the contract page count,
`(nil, false)` for the contract code and for the contract page of every index;
so it is for every field on the empty tree. -/
theorem read_absent (z : Snappy) (tree : Tree) (id : AccountID) :
    ((tree.Lookup (0x01 :: 0x02 :: id)).2 = false →
      ReadAccountNonce tree id = .ret (0, false))
    ∧ ((tree.Lookup (0x01 :: 0x03 :: id)).2 = false →
      ReadAccountBalance tree id = .ret (0, false))
    ∧ ((tree.Lookup (0x01 :: 0x04 :: id)).2 = false →
      ReadAccountStake tree id = .ret (0, false))
    ∧ ((tree.Lookup (0x01 :: 0x06 :: id)).2 = false →
      ReadAccountContractNumPages tree id = .ret (0, false))
    ∧ ((tree.Lookup (0x01 :: 0x05 :: id)).2 = false →
      ReadAccountContractCode tree id = ([], false))
    ∧ (∀ idx, (tree.Lookup (0x01 :: 0x07 :: (PutUint64LE idx ++ id))).2 = false →
      ReadAccountContractPage z tree id idx = ([], false))
    ∧ ReadAccountNonce Tree.empty id = .ret (0, false)
    ∧ ReadAccountBalance Tree.empty id = .ret (0, false)
    ∧ ReadAccountStake Tree.empty id = .ret (0, false)
    ∧ ReadAccountContractNumPages Tree.empty id = .ret (0, false)
    ∧ ReadAccountContractCode Tree.empty id = ([], false)
    ∧ ∀ idx, ReadAccountContractPage z Tree.empty id idx = ([], false) := by
  refine ⟨?_, ?_, ?_, ?_, ?_, ?_, rfl, rfl, rfl, rfl, rfl, fun _ => rfl⟩
  · intro h
    have h1 : (tree.Lookup (keyAccounts ++ (keyAccountNonce ++ id))).2 = false := h
    simp [ReadAccountNonce, readUnderAccounts, h1]
  · intro h
    have h1 : (tree.Lookup (keyAccounts ++ (keyAccountBalance ++ id))).2 = false := h
    simp [ReadAccountBalance, readUnderAccounts, h1]
  · intro h
    have h1 : (tree.Lookup (keyAccounts ++ (keyAccountStake ++ id))).2 = false := h
    simp [ReadAccountStake, readUnderAccounts, h1]
  · intro h
    have h1 : (tree.Lookup (keyAccounts ++ (keyAccountContractNumPages ++ id))).2
        = false := h
    simp [ReadAccountContractNumPages, readUnderAccounts, h1]
  · intro h
    have h1 : (tree.Lookup (keyAccounts ++ (keyAccountContractCode ++ id))).2 = false := h
    simp [ReadAccountContractCode, readUnderAccounts, h1]
  · intro idx h
    cases hl : tree.Lookup (0x01 :: 0x07 :: (PutUint64LE idx ++ id)) with
    | mk buf ok =>
      rw [hl] at h
      rw [ReadAccountContractPage_of_Lookup z tree id idx buf ok hl, if_pos (Or.inl h)]

/-- Witness of C14: a tree that holds the balance of an account does not hold
its nonce, which reads as `(0, false)`. -/
theorem read_absent_witness :
    ((WriteAccountBalance Tree.empty ZeroID 5).Lookup (0x01 :: 0x02 :: ZeroID)).2 = false
    ∧ ReadAccountNonce (WriteAccountBalance Tree.empty ZeroID 5) ZeroID = .ret (0, false) :=
  ⟨by decide,
   (read_absent sampleSnappy (WriteAccountBalance Tree.empty ZeroID 5) ZeroID).1 (by decide)⟩

/-- C15: when the key of a contract page holds a non-empty value that `Decode`
rejects, `ReadAccountContractPage` returns `(nil, false)`, as it does for a page
that was never written; it returns `true` only when the stored value is
non-empty and is decoded, and then it returns the decoded bytes. -/
theorem read_page_decode (z : Snappy) (tree : Tree) (id : TransactionID) (idx : Nat) :
    (∀ buf e, tree.Lookup (0x01 :: 0x07 :: (PutUint64LE idx ++ id)) = (buf, true) →
      buf ≠ [] → z.Decode buf = .error e →
      ReadAccountContractPage z tree id idx = ([], false)
      ∧ ReadAccountContractPage z tree id idx = ReadAccountContractPage z Tree.empty id idx)
    ∧ ((ReadAccountContractPage z tree id idx).2 = true →
      ∃ buf decoded, tree.Lookup (0x01 :: 0x07 :: (PutUint64LE idx ++ id)) = (buf, true)
        ∧ buf ≠ [] ∧ z.Decode buf = .ok decoded
        ∧ ReadAccountContractPage z tree id idx = (decoded, true)) := by
  constructor
  · intro buf e hl hne hd
    have h1 : ReadAccountContractPage z tree id idx = ([], false) := by
      rw [ReadAccountContractPage_of_Lookup z tree id idx buf true hl]
      simp [hne, hd]
    exact ⟨h1, h1⟩
  · intro h
    cases hl : tree.Lookup (0x01 :: 0x07 :: (PutUint64LE idx ++ id)) with
    | mk buf ok =>
      rw [ReadAccountContractPage_of_Lookup z tree id idx buf ok hl] at h ⊢
      cases ok with
      | false => simp at h
      | true =>
        cases buf with
        | nil => simp at h
        | cons x xs =>
          cases hd : z.Decode (x :: xs) with
          | error e => simp [hd] at h
          | ok decoded => exact ⟨x :: xs, decoded, rfl, by simp, hd, by simp [hd]⟩

/-- Witness of C15: page 3 of the all-zero account holds two bytes whose length
header is wrong, and reads as `(nil, false)`. -/
theorem read_page_decode_witness :
    corruptPageTree.Lookup (0x01 :: 0x07 :: (PutUint64LE 3 ++ ZeroID)) = ([5, 1], true)
    ∧ checkingSnappy.Decode [5, 1] = .error (.new "snappy: corrupt input")
    ∧ ReadAccountContractPage checkingSnappy corruptPageTree ZeroID 3 = ([], false) :=
  ⟨by decide, by decide,
   ((read_page_decode checkingSnappy corruptPageTree ZeroID 3).1 [5, 1]
     (.new "snappy: corrupt input") (by decide) (by decide) (by decide)).1⟩

/-! ## The client -/

/-- C17: whatever the two lookups return, `Find` returns a triple in which the
account or the transaction is nil, both are nil when the error is not nil, and
exactly one is not nil when the error is nil; the account is returned, after
the account lookup alone, exactly when `GetAccount` succeeds with a positive
balance, a positive stake, the contract flag or a positive page count;
otherwise the transaction is returned exactly when `GetTransaction` succeeds;
otherwise the error is "Address not found". -/
theorem Find_cases (c : Client) (address : Bytes) :
    ((c.Find address).1.1 = none ∨ (c.Find address).1.2.1 = none)
    ∧ ((c.Find address).1.2.2 ≠ none →
        (c.Find address).1.1 = none ∧ (c.Find address).1.2.1 = none)
    ∧ ((c.Find address).1.2.2 = none →
        ((c.Find address).1.1 ≠ none ∧ (c.Find address).1.2.1 = none)
        ∨ ((c.Find address).1.1 = none ∧ (c.Find address).1.2.1 ≠ none))
    ∧ (∀ a, (c.Find address).1.1 = some a ↔
        c.GetAccount address = .ok a
        ∧ (a.Balance > 0 ∨ a.Stake > 0 ∨ a.IsContract = true ∨ a.NumPages > 0))
    ∧ ((c.Find address).1.1 ≠ none → (c.Find address).2 = [.account address])
    ∧ ((c.Find address).1.1 = none →
        (c.Find address).2 = [.account address, .transaction address]
        ∧ (∀ t, (c.Find address).1.2.1 = some t ↔ c.GetTransaction address = .ok t)
        ∧ ((∀ t, c.GetTransaction address ≠ .ok t) →
            (c.Find address).1 = (none, none, some (.new "Address not found")))) := by
  cases ha : c.GetAccount address with
  | error e =>
    cases ht : c.GetTransaction address with
    | error e2 => simp [Client.Find, ha, ht]
    | ok t => simp [Client.Find, ha, ht]
  | ok a =>
    by_cases hf : a.Balance > 0 ∨ a.Stake > 0 ∨ a.IsContract = true ∨ a.NumPages > 0
    · have hiff : ∀ a1, a = a1 ↔ a = a1
          ∧ (a1.Balance > 0 ∨ a1.Stake > 0 ∨ a1.IsContract = true ∨ a1.NumPages > 0) :=
        fun a1 => ⟨fun h => ⟨h, h ▸ hf⟩, fun h => h.1⟩
      simpa [Client.Find, ha, if_pos hf] using hiff
    · have hnot : ∀ a1, a = a1 →
          ¬ (a1.Balance > 0 ∨ a1.Stake > 0 ∨ a1.IsContract = true ∨ a1.NumPages > 0) :=
        fun a1 h => h ▸ hf
      cases ht : c.GetTransaction address with
      | error e2 => simpa [Client.Find, ha, ht, if_neg hf] using hnot
      | ok t => simpa [Client.Find, ha, ht, if_neg hf] using hnot

/-- Witness of C17: the sample client holds, under the all-zero address, an
account without funds and a transaction; `Find` returns the transaction. -/
theorem Find_cases_witness :
    (sampleClient.Find ZeroID).1.1 = none
    ∧ (sampleClient.Find ZeroID).2 = [.account ZeroID, .transaction ZeroID]
    ∧ ((sampleClient.Find ZeroID).1.2.1 = some ⟨ZeroID⟩ ↔
        sampleClient.GetTransaction ZeroID = .ok ⟨ZeroID⟩) :=
  ⟨by decide,
   ((Find_cases sampleClient ZeroID).2.2.2.2.2 (by decide)).1,
   ((Find_cases sampleClient ZeroID).2.2.2.2.2 (by decide)).2.1 ⟨ZeroID⟩⟩

/-! ## The example of the spec, for any number of rounds -/

/-- On a store whose coming puts all succeed, `StoreRound` writes its four
entries and returns nil. -/
theorem StoreRound_of_all_none (c : RoundCodec) (kv : KV) (round : Round)
    (currentIx oldestIx storedCount : Nat) (h : ∀ o ∈ kv.putErrs, o = none) :
    StoreRound c kv round currentIx oldestIx storedCount
      = (⟨(keyRounds ++ Itoa currentIx, c.Marshal round)
            :: (keyRoundLatestIx, PutUint32BE currentIx)
            :: (keyRoundOldestIx, PutUint32BE oldestIx)
            :: (keyRoundStoredCount, [toByte storedCount]) :: kv.entries,
          kv.putErrs.drop 4⟩, none) := by
  obtain ⟨es, pe⟩ := kv
  rcases pe with _ | ⟨_ | e0, _ | ⟨_ | e1, _ | ⟨_ | e2, _ | ⟨_ | e3, pe⟩⟩⟩⟩ <;>
    simp_all [StoreRound, KV.Put, KV.nextPutErr]

theorem storeRounds_of_all_none (c : RoundCodec) :
    ∀ (calls : List StoreCall) (kv : KV), (∀ o ∈ kv.putErrs, o = none) →
    ∀ e ∈ (storeRounds c kv calls).2, e = none := by
  intro calls
  induction calls with
  | nil =>
    intro kv _ e he
    simp [storeRounds] at he
  | cons call rest ih =>
    intro kv h e he
    rw [storeRounds_cons_snd, StoreRound_of_all_none c kv _ _ _ _ h] at he
    rcases List.mem_cons.1 he with h0 | h1
    · exact h0
    · exact ih _ (fun o ho => h o (List.mem_of_mem_drop ho)) e h1

theorem numberedCalls_length : ∀ (rs : List Round) (k : Nat),
    (numberedCalls k rs).length = rs.length := by
  intro rs
  induction rs with
  | nil => intro k; rfl
  | cons r rs ih => intro k; simp [numberedCalls, ih]

theorem numberedCalls_round : ∀ (rs : List Round) (k : Nat),
    (numberedCalls k rs).map (fun call => call.round) = rs := by
  intro rs
  induction rs with
  | nil => intro k; rfl
  | cons r rs ih => intro k; simp [numberedCalls, ih]

theorem numberedCalls_currentIx : ∀ (rs : List Round) (k : Nat),
    (numberedCalls k rs).map (fun call => call.currentIx)
      = List.range' k (numberedCalls k rs).length := by
  intro rs
  induction rs with
  | nil => intro k; rfl
  | cons r rs ih =>
    intro k
    simp only [numberedCalls, List.map_cons, List.length_cons, List.range'_succ]
    rw [ih (k + 1)]

theorem numberedCalls_mem : ∀ (rs : List Round) (k : Nat),
    ∀ call ∈ numberedCalls k rs,
      call.oldestIx = 0 ∧ call.storedCount = call.currentIx + 1 ∧ call.round ∈ rs := by
  intro rs
  induction rs with
  | nil => intro k call h; simp [numberedCalls] at h
  | cons r rs ih =>
    intro k call h
    simp only [numberedCalls, List.mem_cons] at h
    rcases h with h | h
    · subst h
      exact ⟨rfl, rfl, List.mem_cons_self _ _⟩
    · obtain ⟨h1, h2, h3⟩ := ih (k + 1) call h
      exact ⟨h1, h2, List.mem_cons_of_mem _ h3⟩

/-- C18: for `n` rounds, `1 ≤ n ≤ 255`, that are read back from their
serialization: after `StoreRound(kv, r_k, k, 0, k + 1)` for `k = 0..n-1` on an
empty store whose puts all succeed, every call has returned nil and `LoadRounds`
returns the `n` rounds in order, the latest index `n - 1`, the oldest index 0
and a nil error. -/
theorem load_numbered (c : RoundCodec) (putErrs : List (Option Error))
    (rounds : List Round)
    (hput : ∀ o ∈ putErrs, o = none)
    (h1 : 1 ≤ rounds.length) (h255 : rounds.length ≤ 255)
    (hcodec : ∀ r ∈ rounds, c.UnmarshalRound (c.Marshal r) = .ok r) :
    (∀ e ∈ (storeRounds c (KV.empty putErrs) (numberedCalls 0 rounds)).2, e = none)
    ∧ LoadRounds c (storeRounds c (KV.empty putErrs) (numberedCalls 0 rounds)).1
        = .ret (rounds, rounds.length - 1, 0, none) := by
  have hok := storeRounds_of_all_none c (numberedCalls 0 rounds) (KV.empty putErrs) hput
  have hlen := numberedCalls_length rounds 0
  have hne : numberedCalls 0 rounds ≠ [] := by
    intro h0
    rw [h0] at hlen
    simp at hlen
    omega
  have hix := numberedCalls_currentIx rounds 0
  obtain ⟨hold, hcnt, _⟩ := numberedCalls_mem rounds 0 _ (List.getLast_mem hne)
  have hcur : ((numberedCalls 0 rounds).getLast hne).currentIx = rounds.length - 1 := by
    have h := congrArg List.getLast? hix
    rw [List.getLast?_map, List.getLast?_range', List.getLast?_eq_getLast _ hne,
      if_neg (by omega)] at h
    simp only [Option.map_some', Option.some.injEq] at h
    omega
  have hmain := LoadRounds_storeRounds c (KV.empty putErrs) (numberedCalls 0 rounds) hne hok
    hix (by rw [hcnt, hcur, hlen]; omega) (by rw [hcur]; omega) (by rw [hold]; decide)
    (fun call hc => hcodec _ (numberedCalls_mem rounds 0 call hc).2.2)
  refine ⟨hok, ?_⟩
  rw [hmain, hcnt, hcur, hold, numberedCalls_round]
  have hmod : (rounds.length - 1 + 1) % 256 = rounds.length := by omega
  rw [hmod, List.take_of_length_le (Nat.le_refl _)]

/-- Witness of C18: the case `n = 2`, the example of the spec. -/
theorem load_numbered_witness :
    (∀ r ∈ [sampleRound0, sampleRound1],
      sampleCodec.UnmarshalRound (sampleCodec.Marshal r) = .ok r)
    ∧ numberedCalls 0 [sampleRound0, sampleRound1]
        = [⟨sampleRound0, 0, 0, 1⟩, ⟨sampleRound1, 1, 0, 2⟩]
    ∧ LoadRounds sampleCodec
        (storeRounds sampleCodec (KV.empty []) (numberedCalls 0 [sampleRound0, sampleRound1])).1
        = .ret ([sampleRound0, sampleRound1], 1, 0, none) :=
  ⟨by decide, by decide,
   (load_numbered sampleCodec [] [sampleRound0, sampleRound1] (by decide) (by decide)
     (by decide) (by decide)).2⟩

/-! ## The keys of the fields do not collide -/

theorem PutUint64LE_injective {a b : Nat} (ha : a < 2 ^ 64) (hb : b < 2 ^ 64)
    (h : PutUint64LE a = PutUint64LE b) : a = b := by
  have h1 := Uint64LE_PutUint64LE a ha
  rw [h, Uint64LE_PutUint64LE b hb] at h1
  exact (Result.ret.inj h1).symm

theorem accountKey_injective {f g : Field} {id id1 : AccountID}
    (hf : f.valid) (hg : g.valid) (h : accountKey f id = accountKey g id1) :
    f = g ∧ id = id1 := by
  cases f <;> cases g <;>
    simp [accountKey, Field.key, keyAccounts, keyAccountNonce, keyAccountBalance,
      keyAccountStake, keyAccountContractCode, keyAccountContractNumPages,
      keyAccountContractPages] at h <;>
    try exact ⟨rfl, h⟩
  next i j =>
    obtain ⟨h1, h2⟩ := List.append_inj h rfl
    exact ⟨congrArg Field.contractPage (PutUint64LE_injective hf hg h1), h2⟩

theorem Tree.Lookup_Insert_ne (t : Tree) {key key1 : Bytes} (value : Bytes)
    (h : key1 ≠ key) : (t.Insert key value).Lookup key1 = t.Lookup key1 := by
  have hb : (key1 == key) = false := beq_false_of_ne h
  simp [Tree.Lookup, Tree.Insert, List.lookup, hb]

/-- Every `Write` is one insertion, under the key of its field. -/
theorem writeField_eq_Insert (z : Snappy) (tree : Tree) (id : AccountID) (v : Nat)
    (b : Bytes) (f : Field) :
    ∃ value, writeField z tree id v b f = tree.Insert (accountKey f id) value := by
  cases f <;> exact ⟨_, rfl⟩

/-- Every `Read` depends on the tree through the lookup of the key of its
field only. -/
theorem readField_congr (z : Snappy) (t t1 : Tree) (id : AccountID) (f : Field)
    (h : t.Lookup (accountKey f id) = t1.Lookup (accountKey f id)) :
    readField z t id f = readField z t1 id f := by
  cases f
  · have h1 : t.Lookup (keyAccounts ++ (keyAccountNonce ++ id))
        = t1.Lookup (keyAccounts ++ (keyAccountNonce ++ id)) := h
    simp only [readField, ReadAccountNonce, readUnderAccounts, h1]
  · have h1 : t.Lookup (keyAccounts ++ (keyAccountBalance ++ id))
        = t1.Lookup (keyAccounts ++ (keyAccountBalance ++ id)) := h
    simp only [readField, ReadAccountBalance, readUnderAccounts, h1]
  · have h1 : t.Lookup (keyAccounts ++ (keyAccountStake ++ id))
        = t1.Lookup (keyAccounts ++ (keyAccountStake ++ id)) := h
    simp only [readField, ReadAccountStake, readUnderAccounts, h1]
  · have h1 : t.Lookup (keyAccounts ++ (keyAccountContractCode ++ id))
        = t1.Lookup (keyAccounts ++ (keyAccountContractCode ++ id)) := h
    simp only [readField, ReadAccountContractCode, readUnderAccounts, h1]
  · have h1 : t.Lookup (keyAccounts ++ (keyAccountContractNumPages ++ id))
        = t1.Lookup (keyAccounts ++ (keyAccountContractNumPages ++ id)) := h
    simp only [readField, ReadAccountContractNumPages, readUnderAccounts, h1]
  · next idx =>
    have h1 : t.Lookup (keyAccounts ++ (keyAccountContractPages ++ PutUint64LE idx ++ id))
        = t1.Lookup (keyAccounts ++ (keyAccountContractPages ++ PutUint64LE idx ++ id)) := h
    simp only [readField, ReadAccountContractPage, readUnderAccounts, h1]

/-- C19: the key of an account field determines the field, the page index (a
`uint64`) and the id: two fields of two accounts have the same key only if they
are the same field, with the same page index for pages, of the same account.
Every `Write` inserts under the key of its field and every `Read` looks that key
up, so a `Write` to one field of one account leaves the result of the `Read` of
every other field, account or page index as it was. -/
theorem account_keys_frame (z : Snappy) (f g : Field) (id id1 : AccountID)
    (hf : f.valid) (hg : g.valid) :
    (accountKey f id = accountKey g id1 → f = g ∧ id = id1)
    ∧ (∀ (tree : Tree) (v : Nat) (b : Bytes),
        ∃ value, writeField z tree id v b f = tree.Insert (accountKey f id) value)
    ∧ (∀ t t1 : Tree, t.Lookup (accountKey g id1) = t1.Lookup (accountKey g id1) →
        readField z t id1 g = readField z t1 id1 g)
    ∧ (¬ (f = g ∧ id = id1) → ∀ (tree : Tree) (v : Nat) (b : Bytes),
        readField z (writeField z tree id v b f) id1 g = readField z tree id1 g) := by
  refine ⟨accountKey_injective hf hg, fun tree v b => writeField_eq_Insert z tree id v b f,
    fun t t1 h => readField_congr z t t1 id1 g h, fun hne tree v b => ?_⟩
  obtain ⟨value, hw⟩ := writeField_eq_Insert z tree id v b f
  apply readField_congr
  rw [hw]
  apply Tree.Lookup_Insert_ne
  intro hk
  exact hne (accountKey_injective hf hg hk.symm)

/-- Witness of C19: writing page 4 of an account leaves page 3 of the account,
which was written before, as it reads. -/
theorem account_keys_frame_witness :
    (Field.contractPage 4).valid ∧ (Field.contractPage 3).valid
    ∧ ¬ (Field.contractPage 4 = Field.contractPage 3 ∧ ZeroID = ZeroID)
    ∧ readField sampleSnappy
        (writeField sampleSnappy (WriteAccountContractPage sampleSnappy Tree.empty ZeroID 3 [9])
          ZeroID 0 [8] (.contractPage 4)) ZeroID (.contractPage 3)
      = readField sampleSnappy (WriteAccountContractPage sampleSnappy Tree.empty ZeroID 3 [9])
          ZeroID (.contractPage 3) :=
  ⟨by decide, by decide, by decide,
   (account_keys_frame sampleSnappy (.contractPage 4) (.contractPage 3) ZeroID ZeroID
     (by decide) (by decide)).2.2.2 (by decide) _ 0 [8]⟩

/-! ## The cursors of every reachable store -/

theorem KV.Get_mem {kv : KV} {key b : Bytes} (h : kv.Get key = .ok b) :
    (key, b) ∈ kv.entries := by
  obtain ⟨es, pe⟩ := kv
  simp only [KV.Get] at h
  induction es with
  | nil => simp [List.lookup] at h
  | cons e es ih =>
    obtain ⟨k, v⟩ := e
    by_cases hk : key = k
    · subst hk
      simp [List.lookup] at h
      simp [h]
    · have hb : (key == k) = false := beq_false_of_ne hk
      simp only [List.lookup, hb] at h
      exact List.mem_cons_of_mem _ (ih h)

/-- A property of the entries of a store is kept by a put of an entry that has
it, whether the put succeeds or fails. -/
theorem KV.Put_inv (P : Bytes → Bytes → Prop) (kv : KV) (key value : Bytes)
    (h : ∀ k v, (k, v) ∈ kv.entries → P k v) (hp : P key value) :
    ∀ k v, (k, v) ∈ (kv.Put key value).1.entries → P k v := by
  intro k v hm
  unfold KV.Put at hm
  split at hm
  · exact h k v hm
  · simp only [List.mem_cons, Prod.mk.injEq] at hm
    rcases hm with ⟨rfl, rfl⟩ | hm
    · exact hp
    · exact h k v hm

/-- A property of the entries of a store that the four entries of a round have
is kept by `StoreRound`, also when it stops at a failed put. -/
theorem StoreRound_inv (P : Bytes → Bytes → Prop) (c : RoundCodec) (kv : KV) (round : Round)
    (currentIx oldestIx storedCount : Nat)
    (h : ∀ k v, (k, v) ∈ kv.entries → P k v)
    (h1 : P keyRoundStoredCount [toByte storedCount])
    (h2 : P keyRoundOldestIx (PutUint32BE oldestIx))
    (h3 : P keyRoundLatestIx (PutUint32BE currentIx))
    (h4 : P (keyRounds ++ Itoa currentIx) (c.Marshal round)) :
    ∀ k v, (k, v) ∈ (StoreRound c kv round currentIx oldestIx storedCount).1.entries →
      P k v := by
  have i1 := KV.Put_inv P kv _ _ h h1
  unfold StoreRound
  split
  · next ka err e1 =>
    rw [e1] at i1
    exact i1
  · next ka e1 =>
    rw [e1] at i1
    have i2 := KV.Put_inv P ka _ _ i1 h2
    dsimp only
    split
    · next kb err e2 =>
      rw [e2] at i2
      exact i2
    · next kb e2 =>
      rw [e2] at i2
      have i3 := KV.Put_inv P kb _ _ i2 h3
      split
      · next kc err e3 =>
        rw [e3] at i3
        exact i3
      · next kc e3 =>
        rw [e3] at i3
        have i4 := KV.Put_inv P kc _ _ i3 h4
        split
        · next kd err e4 =>
          rw [e4] at i4
          exact i4
        · next kd e4 =>
          rw [e4] at i4
          exact i4

/-- In every store reached by `StoreRound` calls from a store whose cursor
entries have the lengths `LoadRounds` indexes, the cursor entries have these
lengths. -/
theorem storeRounds_cursor_lengths (c : RoundCodec) :
    ∀ (calls : List StoreCall) (kv : KV),
    (∀ k v, (k, v) ∈ kv.entries →
      (k = keyRoundLatestIx ∨ k = keyRoundOldestIx → v.length = 4)
      ∧ (k = keyRoundStoredCount → v.length = 1)) →
    ∀ k v, (k, v) ∈ (storeRounds c kv calls).1.entries →
      (k = keyRoundLatestIx ∨ k = keyRoundOldestIx → v.length = 4)
      ∧ (k = keyRoundStoredCount → v.length = 1) := by
  intro calls
  induction calls with
  | nil => intro kv h; exact h
  | cons call rest ih =>
    intro kv h
    rw [storeRounds_cons_fst]
    apply ih
    apply StoreRound_inv _ c kv call.round call.currentIx call.oldestIx call.storedCount h
    · simp [keyRoundStoredCount, keyRoundLatestIx, keyRoundOldestIx]
    · simp [keyRoundStoredCount, keyRoundLatestIx, keyRoundOldestIx, PutUint32BE]
    · simp [keyRoundStoredCount, keyRoundLatestIx, keyRoundOldestIx, PutUint32BE]
    · simp [keyRoundStoredCount, keyRoundLatestIx, keyRoundOldestIx, keyRounds]

/-- C20: in every store reached from an empty store by a sequence of `StoreRound`
calls, whatever puts fail on the way, a value under the latest or the oldest
index key has four bytes and a value under the count key has one byte, and
`LoadRounds` returns (rounds or an error): it does not fault. -/
theorem LoadRounds_never_faults (c : RoundCodec) (putErrs : List (Option Error))
    (calls : List StoreCall) :
    (∀ b, (storeRounds c (KV.empty putErrs) calls).1.Get keyRoundLatestIx = .ok b →
      b.length = 4)
    ∧ (∀ b, (storeRounds c (KV.empty putErrs) calls).1.Get keyRoundOldestIx = .ok b →
      b.length = 4)
    ∧ (∀ b, (storeRounds c (KV.empty putErrs) calls).1.Get keyRoundStoredCount = .ok b →
      b.length = 1)
    ∧ LoadRounds c (storeRounds c (KV.empty putErrs) calls).1 ≠ .panic
    ∧ ∃ out, LoadRounds c (storeRounds c (KV.empty putErrs) calls).1 = .ret out := by
  have hinv := storeRounds_cursor_lengths c calls (KV.empty putErrs)
    (fun k v h => by simp [KV.empty] at h)
  have g1 : ∀ b, (storeRounds c (KV.empty putErrs) calls).1.Get keyRoundLatestIx = .ok b →
      b.length = 4 := fun b hb => (hinv _ _ (KV.Get_mem hb)).1 (Or.inl rfl)
  have g2 : ∀ b, (storeRounds c (KV.empty putErrs) calls).1.Get keyRoundOldestIx = .ok b →
      b.length = 4 := fun b hb => (hinv _ _ (KV.Get_mem hb)).1 (Or.inr rfl)
  have g3 : ∀ b, (storeRounds c (KV.empty putErrs) calls).1.Get keyRoundStoredCount = .ok b →
      b.length = 1 := fun b hb => (hinv _ _ (KV.Get_mem hb)).2 rfl
  have hret : ∃ out, LoadRounds c (storeRounds c (KV.empty putErrs) calls).1 = .ret out := by
    generalize (storeRounds c (KV.empty putErrs) calls).1 = kv at g1 g2 g3
    unfold LoadRounds
    cases h1 : kv.Get keyRoundLatestIx with
    | error e => exact ⟨_, rfl⟩
    | ok b1 =>
      obtain ⟨v1, hv1⟩ := Uint32BE_of_length (Nat.le_of_eq (g1 b1 h1).symm)
      simp only [hv1]
      cases h2 : kv.Get keyRoundOldestIx with
      | error e => exact ⟨_, rfl⟩
      | ok b2 =>
        obtain ⟨v2, hv2⟩ := Uint32BE_of_length (Nat.le_of_eq (g2 b2 h2).symm)
        simp only [hv2]
        cases h3 : kv.Get keyRoundStoredCount with
        | error e => exact ⟨_, rfl⟩
        | ok b3 =>
          have hl := g3 b3 h3
          cases b3 with
          | nil => simp at hl
          | cons b0 bs =>
            simp only
            cases loadRoundsLoop c kv 0 b0.val with
            | error e => exact ⟨_, rfl⟩
            | ok rs => exact ⟨_, rfl⟩
  refine ⟨g1, g2, g3, ?_, hret⟩
  obtain ⟨out, hout⟩ := hret
  rw [hout]
  simp

/-! ## The sync view handler -/

/-- Looking up the identifier of a root that was just registered, when no root
of this identifier was held: the root itself. -/
theorem getRootByID_addRoot_new (s : syncer) (peer : PeerID) (root : Round)
    (h : ∀ r ∈ s.roots, r.ID ≠ root.ID) :
    (s.addRootIfNotExists peer root).getRootByID root.ID = some root := by
  have hany : s.roots.any (fun r => r.ID == root.ID) = false := by
    rw [List.any_eq_false]
    intro r hr
    simpa using h r hr
  have hnone : s.roots.find? (fun r => r.ID == root.ID) = none := by
    rw [List.find?_eq_none]
    intro r hr
    simpa using h r hr
  simp [syncer.getRootByID, syncer.addRootIfNotExists, hany, List.find?_append, hnone]

/-- Looking up the identifier of a root that was just registered, when a root
of this identifier was held: a root that was held. -/
theorem getRootByID_addRoot_known (s : syncer) (peer : PeerID) (root : Round)
    (h : ∃ r ∈ s.roots, r.ID = root.ID) :
    ∃ r ∈ s.roots, r.ID = root.ID
      ∧ (s.addRootIfNotExists peer root).getRootByID root.ID = some r := by
  have hany : s.roots.any (fun r => r.ID == root.ID) = true := by
    rw [List.any_eq_true]
    obtain ⟨r, hr, hid⟩ := h
    exact ⟨r, hr, by simpa using hid⟩
  cases hf : s.roots.find? (fun r => r.ID == root.ID) with
  | none =>
    rw [List.find?_eq_none] at hf
    obtain ⟨r, hr, hid⟩ := h
    exact absurd (by simpa using hid) (hf r hr)
  | some r =>
    refine ⟨r, List.mem_of_find?_eq_some hf, by simpa using List.find?_some hf, ?_⟩
    simp [syncer.getRootByID, syncer.addRootIfNotExists, hany, hf]

/-- The sync view handler on a request that makes the syncer prefer. -/
theorem handleSyncViewRequest_prefer (node : Node) (peer : PeerID) (req : SyncViewRequest)
    (hv : node.ledger.ViewID < req.root.ViewID)
    (hp : node.syncer.resolver.Preferred = none) :
    handleSyncViewRequest node peer req
      = ({ node with syncer :=
            { node.syncer.addRootIfNotExists peer req.root with
              resolver := ⟨some req.root.ID⟩ } },
          ⟨(node.syncer.addRootIfNotExists peer req.root).getRootByID req.root.ID⟩) := by
  have hp1 : (node.syncer.addRootIfNotExists peer req.root).resolver.Preferred = none := hp
  have hp2 : (node.syncer.addRootIfNotExists peer req.root).resolver.preferred = none := hp
  unfold handleSyncViewRequest
  dsimp only
  rw [if_pos ⟨hv, hp1⟩]
  simp [Resolver.Prefer, Resolver.Preferred, hp2, syncer.getRootByID]

/-- The sync view handler on a request that does not make the syncer prefer. -/
theorem handleSyncViewRequest_keep (node : Node) (peer : PeerID) (req : SyncViewRequest)
    (hc : ¬ (node.ledger.ViewID < req.root.ViewID ∧ node.syncer.resolver.Preferred = none)) :
    handleSyncViewRequest node peer req
      = ({ node with syncer := node.syncer.addRootIfNotExists peer req.root },
          match node.syncer.resolver.Preferred with
          | none => ⟨some node.ledger.Root⟩
          | some preferred =>
            ⟨(node.syncer.addRootIfNotExists peer req.root).getRootByID preferred⟩) := by
  have hc1 : ¬ (node.ledger.ViewID < req.root.ViewID
      ∧ (node.syncer.addRootIfNotExists peer req.root).resolver.Preferred = none) := hc
  unfold handleSyncViewRequest
  dsimp only
  rw [if_neg hc1]
  rfl

/-- C16, as stated, fails in its gloss on the adopted root: a syncer that holds
a root of some identifier (registered by an earlier request, not adopted) is
advertised another root of the same identifier and a later view; it adopts the
identifier, and answers with the root it held, not with the advertised one. -/
theorem adopted_root_not_advertised :
    (handleSyncViewRequest sampleNode [7] ⟨sampleStaleRoot⟩).1.syncer
        = ⟨[([7], sampleStaleRoot.ID)], [sampleStaleRoot], ⟨none⟩⟩
    ∧ (handleSyncViewRequest sampleNode [7] ⟨sampleStaleRoot⟩).1.ledger.ViewID
        < sampleAdvertisedRoot.ViewID
    ∧ (handleSyncViewRequest (handleSyncViewRequest sampleNode [7] ⟨sampleStaleRoot⟩).1 [8]
          ⟨sampleAdvertisedRoot⟩).1.syncer.resolver.Preferred
        = some sampleAdvertisedRoot.ID
    ∧ (handleSyncViewRequest (handleSyncViewRequest sampleNode [7] ⟨sampleStaleRoot⟩).1 [8]
          ⟨sampleAdvertisedRoot⟩).2.root = some sampleStaleRoot
    ∧ (handleSyncViewRequest (handleSyncViewRequest sampleNode [7] ⟨sampleStaleRoot⟩).1 [8]
          ⟨sampleAdvertisedRoot⟩).2.root ≠ some sampleAdvertisedRoot := by
  decide

/-- C16, amended: `handleSyncViewRequest` registers the advertised root (the
syncer then holds a root of its identifier) and leaves the ledger as it was; if
the view ID of the ledger is below that of the advertised root and the resolver
of the syncer has no preference, the preference becomes the identifier of the
advertised root, otherwise the preference is unchanged; the response root is
the root the syncer holds for the resulting preference if one is set, else the
current round root of the ledger. When the advertised root was just adopted, the
response is a root of its identifier: the advertised root itself if the syncer
held no root of this identifier before, otherwise a root it held. -/
theorem syncView_cases (node : Node) (peer : PeerID) (req : SyncViewRequest) :
    (handleSyncViewRequest node peer req).1.ledger = node.ledger
    ∧ (handleSyncViewRequest node peer req).1.syncer.roots
        = (node.syncer.addRootIfNotExists peer req.root).roots
    ∧ (handleSyncViewRequest node peer req).1.syncer.accounts
        = (node.syncer.addRootIfNotExists peer req.root).accounts
    ∧ (∃ r ∈ (handleSyncViewRequest node peer req).1.syncer.roots, r.ID = req.root.ID)
    ∧ (node.ledger.ViewID < req.root.ViewID → node.syncer.resolver.Preferred = none →
        (handleSyncViewRequest node peer req).1.syncer.resolver.Preferred
          = some req.root.ID)
    ∧ (¬ (node.ledger.ViewID < req.root.ViewID ∧ node.syncer.resolver.Preferred = none) →
        (handleSyncViewRequest node peer req).1.syncer.resolver.Preferred
          = node.syncer.resolver.Preferred)
    ∧ (∀ p, (handleSyncViewRequest node peer req).1.syncer.resolver.Preferred = some p →
        (handleSyncViewRequest node peer req).2.root
          = (handleSyncViewRequest node peer req).1.syncer.getRootByID p)
    ∧ ((handleSyncViewRequest node peer req).1.syncer.resolver.Preferred = none →
        (handleSyncViewRequest node peer req).2.root = some node.ledger.Root)
    ∧ (node.ledger.ViewID < req.root.ViewID → node.syncer.resolver.Preferred = none →
        ∃ r, (handleSyncViewRequest node peer req).2.root = some r ∧ r.ID = req.root.ID
          ∧ ((∀ r0 ∈ node.syncer.roots, r0.ID ≠ req.root.ID) → r = req.root)
          ∧ ((∃ r0 ∈ node.syncer.roots, r0.ID = req.root.ID) → r ∈ node.syncer.roots)) := by
  have hreg : ∃ r ∈ (node.syncer.addRootIfNotExists peer req.root).roots,
      r.ID = req.root.ID := by
    by_cases hk : ∃ r ∈ node.syncer.roots, r.ID = req.root.ID
    · obtain ⟨r, hr, hid⟩ := hk
      have hany : node.syncer.roots.any (fun r => r.ID == req.root.ID) = true := by
        rw [List.any_eq_true]
        exact ⟨r, hr, by simpa using hid⟩
      exact ⟨r, by simpa [syncer.addRootIfNotExists, hany] using hr, hid⟩
    · have hany : node.syncer.roots.any (fun r => r.ID == req.root.ID) = false := by
        rw [List.any_eq_false]
        intro r hr
        have := fun hid => hk ⟨r, hr, hid⟩
        simpa using this
      exact ⟨req.root, by simp [syncer.addRootIfNotExists, hany], rfl⟩
  by_cases hc : node.ledger.ViewID < req.root.ViewID ∧ node.syncer.resolver.Preferred = none
  · rw [handleSyncViewRequest_prefer node peer req hc.1 hc.2]
    refine ⟨rfl, rfl, rfl, hreg, fun _ _ => rfl, fun hn => absurd hc hn, ?_, ?_, ?_⟩
    · intro p hp
      have hp1 : some req.root.ID = some p := hp
      rw [← Option.some.inj hp1]
      rfl
    · intro hp
      have hp1 : some req.root.ID = none := hp
      simp at hp1
    · intro _ _
      by_cases hk : ∃ r ∈ node.syncer.roots, r.ID = req.root.ID
      · obtain ⟨r, hr, hid, hget⟩ := getRootByID_addRoot_known node.syncer peer req.root hk
        refine ⟨r, hget, hid, fun hnew => absurd hid (hnew r hr), fun _ => hr⟩
      · have hnew : ∀ r ∈ node.syncer.roots, r.ID ≠ req.root.ID :=
          fun r hr hid => hk ⟨r, hr, hid⟩
        exact ⟨req.root, getRootByID_addRoot_new node.syncer peer req.root hnew, rfl,
          fun _ => rfl, fun hk1 => absurd hk1 hk⟩
  · rw [handleSyncViewRequest_keep node peer req hc]
    refine ⟨rfl, rfl, rfl, hreg, fun h1 h2 => absurd ⟨h1, h2⟩ hc, fun _ => rfl, ?_, ?_,
      fun h1 h2 => absurd ⟨h1, h2⟩ hc⟩
    · intro p hp
      have hp1 : node.syncer.resolver.Preferred = some p := hp
      rw [hp1]
    · intro hp
      have hp1 : node.syncer.resolver.Preferred = none := hp
      rw [hp1]

/-- Witness of the amended C16: the sample node, in view 1 and without a sync
preference, is advertised a root of view 5, adopts it and answers with it. -/
theorem syncView_cases_witness :
    sampleNode.ledger.ViewID < sampleAdvertisedRoot.ViewID
    ∧ sampleNode.syncer.resolver.Preferred = none
    ∧ (handleSyncViewRequest sampleNode [7] ⟨sampleAdvertisedRoot⟩).1.syncer.resolver.Preferred
        = some sampleAdvertisedRoot.ID
    ∧ (handleSyncViewRequest sampleNode [7] ⟨sampleAdvertisedRoot⟩).2.root
        = some sampleAdvertisedRoot :=
  ⟨by decide, rfl,
   (syncView_cases sampleNode [7] ⟨sampleAdvertisedRoot⟩).2.2.2.2.1 (by decide) rfl,
   by decide⟩

/-- Witness of C20: on a store whose third put fails, a call of `StoreRound`
stops after the count and the oldest index; the oldest index has four bytes and
`LoadRounds` returns the error of the missing latest index. -/
theorem LoadRounds_never_faults_witness :
    (storeRounds sampleCodec (KV.empty [none, none, some (.new "disk full")])
        [⟨sampleRound0, 0, 0, 1⟩]).1.Get keyRoundOldestIx = .ok [0, 0, 0, 0]
    ∧ ([0, 0, 0, 0] : Bytes).length = 4
    ∧ LoadRounds sampleCodec (storeRounds sampleCodec
        (KV.empty [none, none, some (.new "disk full")]) [⟨sampleRound0, 0, 0, 1⟩]).1
        ≠ .panic :=
  ⟨by decide,
   (LoadRounds_never_faults sampleCodec [none, none, some (.new "disk full")]
     [⟨sampleRound0, 0, 0, 1⟩]).2.1 _ (by decide),
   (LoadRounds_never_faults sampleCodec [none, none, some (.new "disk full")]
     [⟨sampleRound0, 0, 0, 1⟩]).2.2.2.1⟩

end Wavelet
